import Mathlib

/-!
# MikroDB — shallow embedding and verification

This file embeds the storage-engine core of the MikroDB repository
(`src/Persistence.ts`, `src/Table.ts`, `src/WriteAheadLog.ts`, `src/Cache.ts`,
`src/Query.ts`) as executable Lean definitions and proves or refutes the
frozen claims about it.

Modelling conventions, used throughout:

* A Node `Buffer` is a `List Nat` of byte values (each `< 256` where it
  matters); `buffer[i]` out of range is JS `undefined`, which the embedded
  code only ever meets behind bounds guards, so `byteAt` defaults to `0`.
* A JS string is represented by its UTF-8 byte sequence (`List Nat`); UTF-8
  encoding is a bijection between strings and their byte sequences, so all
  string operations of the source become byte-list operations.
* A JS number that may be `undefined` or `NaN` is an `Option Nat`
  (`none` = undefined/NaN); where the source can only see an actual number
  we use `Nat`/`Int` directly.
* Fallible code returns `Except String`.
-/

namespace MikroDB

/-- Byte access `buffer[i]`; out-of-range reads default to `0`
(the embedded code only reads in bounds on every path exercised below). -/
def byteAt (b : List Nat) (i : Nat) : Nat := b.getD i 0

/-- `buffer.readUInt16LE(i)`. -/
def readU16LE (b : List Nat) (i : Nat) : Nat :=
  byteAt b i + 256 * byteAt b (i + 1)

/-- `buffer.readUInt32LE(i)`. -/
def readU32LE (b : List Nat) (i : Nat) : Nat :=
  byteAt b i + 256 * byteAt b (i + 1) + 65536 * byteAt b (i + 2) +
    16777216 * byteAt b (i + 3)

/-- `Number(buffer.readBigUInt64LE(i))`. -/
def readU64LE (b : List Nat) (i : Nat) : Nat :=
  byteAt b i + 256 * byteAt b (i + 1) + 65536 * byteAt b (i + 2) +
    16777216 * byteAt b (i + 3) + 4294967296 * byteAt b (i + 4) +
    1099511627776 * byteAt b (i + 5) + 281474976710656 * byteAt b (i + 6) +
    72057594037927936 * byteAt b (i + 7)

/-- `buffer.readInt32LE(i)`: two's-complement view of the unsigned read. -/
def readI32LE (b : List Nat) (i : Nat) : Int :=
  if readU32LE b i < 2147483648 then (readU32LE b i : Int)
  else (readU32LE b i : Int) - 4294967296

/-- `Number(buffer.readBigInt64LE(i))`. -/
def readI64LE (b : List Nat) (i : Nat) : Int :=
  if readU64LE b i < 9223372036854775808 then (readU64LE b i : Int)
  else (readU64LE b i : Int) - 18446744073709551616

/-- `buffer.writeUInt16LE(n)` (2 bytes, little endian; callers stay in range). -/
def u16le (n : Nat) : List Nat := [n % 256, n / 256 % 256]

/-- `buffer.writeUInt32LE(n)` (4 bytes, little endian). -/
def u32le (n : Nat) : List Nat :=
  [n % 256, n / 256 % 256, n / 65536 % 256, n / 16777216 % 256]

/-- `buffer.writeBigUInt64LE(n)` (8 bytes, little endian). -/
def u64le (n : Nat) : List Nat :=
  [n % 256, n / 256 % 256, n / 65536 % 256, n / 16777216 % 256,
   n / 4294967296 % 256, n / 1099511627776 % 256,
   n / 281474976710656 % 256, n / 72057594037927936 % 256]

/-- `buffer.writeInt32LE(n)`: two's-complement bytes of a signed 32-bit value. -/
def i32le (n : Int) : List Nat := u32le (n % 4294967296).toNat

/-- `buffer.writeBigInt64LE(n)`: two's-complement bytes of a signed 64-bit value. -/
def i64le (n : Int) : List Nat := u64le (n % 18446744073709551616).toNat

/-- `buffer.toString('utf8', start, start + len)` and `buffer.slice(start, start + len)`:
reading clamps at the end of the buffer, exactly as in Node. -/
def substr (b : List Nat) (start len : Nat) : List Nat :=
  (b.drop start).take len

@[simp] theorem byteAt_cons_zero (x : Nat) (b : List Nat) : byteAt (x :: b) 0 = x := rfl

@[simp] theorem byteAt_cons_succ (x : Nat) (b : List Nat) (i : Nat) :
    byteAt (x :: b) (i + 1) = byteAt b i := rfl

@[simp] theorem byteAt_nil (i : Nat) : byteAt [] i = 0 := by
  simp [byteAt]

theorem byteAt_append_right (pre b : List Nat) (i : Nat) :
    byteAt (pre ++ b) (pre.length + i) = byteAt b i := by
  induction pre with
  | nil => simp
  | cons x xs ih =>
    simpa [Nat.succ_add, byteAt_cons_succ] using ih

theorem readU16LE_shift (pre b : List Nat) (i : Nat) :
    readU16LE (pre ++ b) (pre.length + i) = readU16LE b i := by
  unfold readU16LE
  rw [show pre.length + i + 1 = pre.length + (i + 1) by omega,
      byteAt_append_right, byteAt_append_right]

theorem readU32LE_shift (pre b : List Nat) (i : Nat) :
    readU32LE (pre ++ b) (pre.length + i) = readU32LE b i := by
  unfold readU32LE
  rw [show pre.length + i + 1 = pre.length + (i + 1) by omega,
      show pre.length + i + 2 = pre.length + (i + 2) by omega,
      show pre.length + i + 3 = pre.length + (i + 3) by omega,
      byteAt_append_right, byteAt_append_right, byteAt_append_right,
      byteAt_append_right]

theorem readU64LE_shift (pre b : List Nat) (i : Nat) :
    readU64LE (pre ++ b) (pre.length + i) = readU64LE b i := by
  unfold readU64LE
  rw [show pre.length + i + 1 = pre.length + (i + 1) by omega,
      show pre.length + i + 2 = pre.length + (i + 2) by omega,
      show pre.length + i + 3 = pre.length + (i + 3) by omega,
      show pre.length + i + 4 = pre.length + (i + 4) by omega,
      show pre.length + i + 5 = pre.length + (i + 5) by omega,
      show pre.length + i + 6 = pre.length + (i + 6) by omega,
      show pre.length + i + 7 = pre.length + (i + 7) by omega]
  simp only [byteAt_append_right]

@[simp] theorem u16le_length (n : Nat) : (u16le n).length = 2 := rfl
@[simp] theorem u32le_length (n : Nat) : (u32le n).length = 4 := rfl
@[simp] theorem u64le_length (n : Nat) : (u64le n).length = 8 := rfl
@[simp] theorem i32le_length (n : Int) : (i32le n).length = 4 := rfl
@[simp] theorem i64le_length (n : Int) : (i64le n).length = 8 := rfl

theorem readU16LE_u16le (n : Nat) (rest : List Nat) (h : n < 65536) :
    readU16LE (u16le n ++ rest) 0 = n := by
  simp [readU16LE, u16le, byteAt]
  omega

theorem readU32LE_u32le (n : Nat) (rest : List Nat) (h : n < 4294967296) :
    readU32LE (u32le n ++ rest) 0 = n := by
  simp [readU32LE, u32le, byteAt]
  omega

theorem readU64LE_u64le (n : Nat) (rest : List Nat) (h : n < 18446744073709551616) :
    readU64LE (u64le n ++ rest) 0 = n := by
  simp [readU64LE, u64le, byteAt]
  omega

theorem readI32LE_i32le (n : Int) (rest : List Nat)
    (h1 : -2147483648 ≤ n) (h2 : n < 2147483648) :
    readI32LE (i32le n ++ rest) 0 = n := by
  unfold readI32LE i32le
  rw [readU32LE_u32le _ _ (by omega)]
  split <;> omega

theorem readI64LE_i64le (n : Int) (rest : List Nat)
    (h1 : -9223372036854775808 ≤ n) (h2 : n < 9223372036854775808) :
    readI64LE (i64le n ++ rest) 0 = n := by
  unfold readI64LE i64le
  rw [readU64LE_u64le _ _ (by omega)]
  split <;> omega

theorem substr_append_exact (pre s rest : List Nat) :
    substr (pre ++ (s ++ rest)) pre.length s.length = s := by
  simp [substr, List.drop_append_of_le_length (le_refl pre.length),
    List.take_append_of_le_length]

/-!
## The value tree (`Persistence.encodeValue` / `decodeValue`)

`Value` is the tagged value grammar of the codec.  JS has a single `number`
type; `encodeValue` encodes a number as a 32-bit integer exactly when
`Number.isInteger(value) && -2^31 <= value <= 2^31-1`, and as an IEEE-754
double otherwise.  The two constructors `vint` and `vdouble` represent the
two sides of that branch; a double is carried as its 64-bit little-endian bit
pattern, which is exactly what `writeDoubleLE`/`readDoubleLE` move.  Strings
and object keys are UTF-8 byte sequences.
-/

inductive Value where
  | vnull : Value
  | vbool (b : Bool) : Value
  | vint (n : Int) : Value
  | vdouble (bits : Nat) : Value
  | vstring (s : List Nat) : Value
  | varray (items : List Value) : Value
  | vobject (props : List (List Nat × Value)) : Value
  | vdate (ms : Int) : Value

mutual

/-- `Persistence.encodeValue` (src/Persistence.ts): tag byte plus payload. -/
def encodeValue : Value → List Nat
  | .vnull => [0x00]
  | .vbool b => [0x01, if b then 0x01 else 0x00]
  | .vint n => 0x02 :: i32le n
  | .vdouble bits => 0x03 :: u64le bits
  | .vstring s => 0x04 :: u32le s.length ++ s
  | .varray items => 0x05 :: u32le items.length ++ encodeItems items
  | .vobject props => 0x06 :: u32le props.length ++ encodeProps props
  | .vdate ms => 0x07 :: i64le ms

/-- The `for (const item of value) encodedItems.push(this.encodeValue(item))` loop. -/
def encodeItems : List Value → List Nat
  | [] => []
  | v :: vs => encodeValue v ++ encodeItems vs

/-- The object-property loop: `u16` key length, key bytes, encoded value. -/
def encodeProps : List (List Nat × Value) → List Nat
  | [] => []
  | (k, v) :: ps => u16le k.length ++ k ++ encodeValue v ++ encodeProps ps

end

mutual

/-- Well-formedness of a value as JS can actually hold and encode it:
byte ranges, `writeUInt16LE`/`writeUInt32LE`/`writeBigInt64LE` range
constraints, and distinct object keys (a JS object cannot carry duplicates). -/
def wfValue : Value → Bool
  | .vnull => true
  | .vbool _ => true
  | .vint n => decide (-2147483648 ≤ n) && decide (n < 2147483648)
  | .vdouble bits => decide (bits < 18446744073709551616)
  | .vstring s => decide (s.length < 4294967296) && s.all (fun c => c < 256)
  | .varray items => decide (items.length < 4294967296) && wfItems items
  | .vobject props =>
      decide (props.length < 4294967296) &&
      (props.map Prod.fst).Nodup &&
      wfProps props
  | .vdate ms =>
      decide (-9223372036854775808 ≤ ms) && decide (ms < 9223372036854775808)

def wfItems : List Value → Bool
  | [] => true
  | v :: vs => wfValue v && wfItems vs

def wfProps : List (List Nat × Value) → Bool
  | [] => true
  | (k, v) :: ps =>
      decide (k.length < 65536) && k.all (fun c => c < 256) &&
      wfValue v && wfProps ps

end

mutual

/-- Recursion-depth budget sufficient to decode the encoding of a value;
the decoders below are total via an explicit fuel parameter. -/
def fuelV : Value → Nat
  | .varray items => 1 + fuelItems items
  | .vobject props => 1 + fuelProps props
  | _ => 1

def fuelItems : List Value → Nat
  | [] => 1
  | v :: vs => 1 + fuelV v + fuelItems vs

def fuelProps : List (List Nat × Value) → Nat
  | [] => 1
  | (_, v) :: ps => 1 + fuelV v + fuelProps ps

end

/-- The `for (let i = 0; i < count; i++)` loop of `decodeValueWithSize`,
case 0x05 (array): decode `count` consecutive values, tracking the absolute
offset.  The nested decoder is passed as an argument so that the recursion is
structural on `count`. -/
def decodeItemsLoop (dec : List Nat → Nat → Value × Nat) :
    Nat → List Nat → Nat → List Value × Nat
  | 0, _, off => ([], off)
  | count + 1, b, off =>
    let r := dec b off
    let rest := decodeItemsLoop dec count b (off + r.2)
    (r.1 :: rest.1, rest.2)

/-- The loop of `decodeValueWithSize`, case 0x06 (object): `u16` key length,
key bytes, nested value, `count` times. -/
def decodePropsLoop (dec : List Nat → Nat → Value × Nat) :
    Nat → List Nat → Nat → List (List Nat × Value) × Nat
  | 0, _, off => ([], off)
  | count + 1, b, off =>
    let keyLength := readU16LE b off
    let key := substr b (off + 2) keyLength
    let r := dec b (off + 2 + keyLength)
    let rest := decodePropsLoop dec count b (off + 2 + keyLength + r.2)
    ((key, r.1) :: rest.1, rest.2)

/-- `Persistence.decodeValueWithSize(buffer, startOffset)`:
returns the decoded value and the number of bytes read.  `fuel` bounds the
recursion depth; every call made by the embedded engine supplies enough fuel
for any buffer produced by `encodeValue` (see `fuelV_le_encodeLen`). -/
def decodeValueWithSize : Nat → List Nat → Nat → Value × Nat
  | 0, _, _ => (.vnull, 0)
  | fuel + 1, b, startOffset =>
    if startOffset ≥ b.length then (.vnull, 0)
    else
      match byteAt b startOffset with
      | 0x00 => (.vnull, 1)
      | 0x01 => (.vbool (byteAt b (startOffset + 1) == 0x01), 2)
      | 0x02 => (.vint (readI32LE b (startOffset + 1)), 5)
      | 0x03 => (.vdouble (readU64LE b (startOffset + 1)), 9)
      | 0x04 =>
        let len := readU32LE b (startOffset + 1)
        (.vstring (substr b (startOffset + 5) len), 5 + len)
      | 0x05 =>
        let count := readU32LE b (startOffset + 1)
        let r := decodeItemsLoop (decodeValueWithSize fuel) count b (startOffset + 5)
        (.varray r.1, r.2 - startOffset)
      | 0x06 =>
        let count := readU32LE b (startOffset + 1)
        let r := decodePropsLoop (decodeValueWithSize fuel) count b (startOffset + 5)
        (.vobject r.1, r.2 - startOffset)
      | 0x07 => (.vdate (readI64LE b (startOffset + 1)), 9)
      | _ => (.vnull, 1)

/-- `Persistence.decodeValue(buffer)`: the top-level decoder used by
`readTableFromBinaryBuffer`.  It mirrors `decodeValueWithSize` but takes the
whole value buffer; nested values go through `decodeValueWithSize`.
An unknown tag byte logs a warning and yields `null` (the record is *not*
skipped by the caller). -/
def decodeValue (fuel : Nat) (b : List Nat) : Value :=
  if b.length = 0 then .vnull
  else
    match byteAt b 0 with
    | 0x00 => .vnull
    | 0x01 => .vbool (byteAt b 1 == 0x01)
    | 0x02 => .vint (readI32LE b 1)
    | 0x03 => .vdouble (readU64LE b 1)
    | 0x04 => .vstring (substr b 5 (readU32LE b 1))
    | 0x05 =>
      .varray (decodeItemsLoop (decodeValueWithSize fuel) (readU32LE b 1) b 5).1
    | 0x06 =>
      .vobject (decodePropsLoop (decodeValueWithSize fuel) (readU32LE b 1) b 5).1
    | 0x07 => .vdate (readI64LE b 1)
    | _ => .vnull

/-!
### Stream lemmas

Reads at absolute offset `off + k` are reads at `k` of the dropped stream
`b.drop off`; this lets the round-trip proof track only the remaining bytes.
-/

theorem byteAt_drop (b : List Nat) (off k : Nat) :
    byteAt (b.drop off) k = byteAt b (off + k) := by
  induction off generalizing b with
  | zero => simp
  | succ off ih =>
    cases b with
    | nil => simp [byteAt]
    | cons x xs => simpa [Nat.succ_add] using ih xs

theorem readU16LE_drop (b : List Nat) (off k : Nat) :
    readU16LE (b.drop off) k = readU16LE b (off + k) := by
  simp [readU16LE, byteAt_drop, Nat.add_assoc]

theorem readU32LE_drop (b : List Nat) (off k : Nat) :
    readU32LE (b.drop off) k = readU32LE b (off + k) := by
  simp [readU32LE, byteAt_drop, Nat.add_assoc]

theorem readU64LE_drop (b : List Nat) (off k : Nat) :
    readU64LE (b.drop off) k = readU64LE b (off + k) := by
  simp [readU64LE, byteAt_drop, Nat.add_assoc]

theorem readI32LE_drop (b : List Nat) (off k : Nat) :
    readI32LE (b.drop off) k = readI32LE b (off + k) := by
  simp [readI32LE, readU32LE_drop]

theorem readI64LE_drop (b : List Nat) (off k : Nat) :
    readI64LE (b.drop off) k = readI64LE b (off + k) := by
  simp [readI64LE, readU64LE_drop]

theorem substr_drop (b : List Nat) (off s len : Nat) :
    substr b (off + s) len = substr (b.drop off) s len := by
  simp [substr, List.drop_drop, Nat.add_comm]

theorem readU16LE_cons (x : Nat) (l : List Nat) (i : Nat) :
    readU16LE (x :: l) (i + 1) = readU16LE l i := by
  simpa [Nat.add_comm] using readU16LE_shift [x] l i

theorem readU32LE_cons (x : Nat) (l : List Nat) (i : Nat) :
    readU32LE (x :: l) (i + 1) = readU32LE l i := by
  simpa [Nat.add_comm] using readU32LE_shift [x] l i

theorem readU64LE_cons (x : Nat) (l : List Nat) (i : Nat) :
    readU64LE (x :: l) (i + 1) = readU64LE l i := by
  simpa [Nat.add_comm] using readU64LE_shift [x] l i

theorem readI32LE_cons (x : Nat) (l : List Nat) (i : Nat) :
    readI32LE (x :: l) (i + 1) = readI32LE l i := by
  simp [readI32LE, readU32LE_cons]

theorem readI64LE_cons (x : Nat) (l : List Nat) (i : Nat) :
    readI64LE (x :: l) (i + 1) = readI64LE l i := by
  simp [readI64LE, readU64LE_cons]

theorem drop_block (w rest : List Nat) (k : Nat) (hk : w.length = k) :
    (w ++ rest).drop k = rest := by
  subst hk; exact List.drop_left w rest

theorem take_block (w rest : List Nat) (k : Nat) (hk : w.length = k) :
    (w ++ rest).take k = w := by
  subst hk; exact List.take_left w rest

/-!
### Round trip: `decodeValueWithSize` inverts `encodeValue`
-/

theorem encodeValue_ne_nil (v : Value) : encodeValue v ≠ [] := by
  cases v <;> simp [encodeValue]

theorem fuelV_pos (v : Value) : 1 ≤ fuelV v := by
  cases v <;> simp [fuelV]

theorem fuelV_le_of_mem_items (items : List Value) (v : Value) (h : v ∈ items) :
    fuelV v ≤ fuelItems items := by
  induction items with
  | nil => cases h
  | cons w ws ih =>
    rcases List.mem_cons.mp h with rfl | hmem
    · simp [fuelItems]; omega
    · have := ih hmem
      simp [fuelItems]; omega

theorem fuelV_le_of_mem_props (props : List (List Nat × Value))
    (p : List Nat × Value) (h : p ∈ props) : fuelV p.2 ≤ fuelProps props := by
  induction props with
  | nil => cases h
  | cons q qs ih =>
    rcases List.mem_cons.mp h with rfl | hmem
    · obtain ⟨k, v⟩ := p
      simp [fuelProps]; omega
    · have := ih hmem
      obtain ⟨k', v'⟩ := q
      simp [fuelProps]; omega

theorem wfValue_of_mem_items (items : List Value) (hwf : wfItems items = true)
    (v : Value) (h : v ∈ items) : wfValue v = true := by
  induction items with
  | nil => cases h
  | cons w ws ih =>
    rw [wfItems] at hwf
    simp only [Bool.and_eq_true] at hwf
    rcases List.mem_cons.mp h with rfl | hmem
    · exact hwf.1
    · exact ih hwf.2 hmem

theorem decodeItemsLoop_encode (fuel : Nat)
    (ih : ∀ v, wfValue v = true → fuelV v ≤ fuel →
      ∀ (b : List Nat) (off : Nat) (rest : List Nat),
        b.drop off = encodeValue v ++ rest →
        decodeValueWithSize fuel b off = (v, (encodeValue v).length)) :
    ∀ (items : List Value), wfItems items = true →
      (∀ v ∈ items, fuelV v ≤ fuel) →
      ∀ (b : List Nat) (off : Nat) (rest : List Nat),
        b.drop off = encodeItems items ++ rest →
        decodeItemsLoop (decodeValueWithSize fuel) items.length b off
          = (items, off + (encodeItems items).length) := by
  intro items
  induction items with
  | nil =>
    intro _ _ b off rest _
    simp [decodeItemsLoop, encodeItems]
  | cons v vs ihl =>
    intro hwf hfl b off rest hdrop
    rw [encodeItems] at hdrop
    rw [List.append_assoc] at hdrop
    have hwf' : wfItems (v :: vs) = true := hwf
    rw [wfItems] at hwf'
    simp only [Bool.and_eq_true] at hwf'
    have h1 : decodeValueWithSize fuel b off = (v, (encodeValue v).length) :=
      ih v hwf'.1 (hfl v (List.mem_cons_self v vs)) b off _ hdrop
    have hdrop2 : b.drop (off + (encodeValue v).length)
        = encodeItems vs ++ rest := by
      rw [← List.drop_drop, hdrop, drop_block _ _ _ rfl]
    have h2 := ihl hwf'.2 (fun w hw => hfl w (List.mem_cons_of_mem v hw))
      b (off + (encodeValue v).length) rest hdrop2
    simp only [List.length_cons, decodeItemsLoop, h1, h2]
    simp only [Prod.mk.injEq, true_and]
    simp [encodeItems]
    omega

theorem decodePropsLoop_encode (fuel : Nat)
    (ih : ∀ v, wfValue v = true → fuelV v ≤ fuel →
      ∀ (b : List Nat) (off : Nat) (rest : List Nat),
        b.drop off = encodeValue v ++ rest →
        decodeValueWithSize fuel b off = (v, (encodeValue v).length)) :
    ∀ (props : List (List Nat × Value)), wfProps props = true →
      (∀ p ∈ props, fuelV p.2 ≤ fuel) →
      ∀ (b : List Nat) (off : Nat) (rest : List Nat),
        b.drop off = encodeProps props ++ rest →
        decodePropsLoop (decodeValueWithSize fuel) props.length b off
          = (props, off + (encodeProps props).length) := by
  intro props
  induction props with
  | nil =>
    intro _ _ b off rest _
    simp [decodePropsLoop, encodeProps]
  | cons p ps ihl =>
    obtain ⟨k, v⟩ := p
    intro hwf hfl b off rest hdrop
    rw [encodeProps] at hdrop
    rw [List.append_assoc, List.append_assoc] at hdrop
    have hwf' := hwf
    rw [wfProps] at hwf'
    simp only [Bool.and_eq_true, decide_eq_true_eq] at hwf'
    obtain ⟨⟨⟨hklen, _⟩, hwfv⟩, hwfps⟩ := hwf'
    -- keyLength = readU16LE b off
    have hkeylen : readU16LE b off = k.length := by
      have h0 := readU16LE_drop b off 0
      rw [Nat.add_zero] at h0
      rw [← h0, hdrop]
      exact readU16LE_u16le k.length _ hklen
    -- key = substr b (off + 2) keyLength
    have hkey : substr b (off + 2) k.length = k := by
      rw [substr_drop, hdrop]
      show ((u16le k.length ++ (k ++ (encodeValue v ++ (encodeProps ps ++ rest)))).drop 2).take k.length = k
      rw [drop_block _ _ 2 (u16le_length k.length), take_block _ _ _ rfl]
    -- nested value at off + 2 + keyLength
    have hdropv : b.drop (off + 2 + k.length) = encodeValue v ++ (encodeProps ps ++ rest) := by
      rw [Nat.add_assoc, ← List.drop_drop, hdrop,
          drop_block (u16le k.length ++ k) _ (2 + k.length) (by simp)]
    have h1 : decodeValueWithSize fuel b (off + 2 + k.length)
        = (v, (encodeValue v).length) :=
      ih v hwfv (hfl (k, v) (List.mem_cons_self _ ps)) b _ _ hdropv
    have hdrop2 : b.drop (off + 2 + k.length + (encodeValue v).length)
        = encodeProps ps ++ rest := by
      rw [← List.drop_drop, hdropv, drop_block _ _ _ rfl]
    have h2 := ihl hwfps (fun q hq => hfl q (List.mem_cons_of_mem _ hq))
      b (off + 2 + k.length + (encodeValue v).length) rest hdrop2
    simp only [List.length_cons, decodePropsLoop, hkeylen, hkey, h1, h2]
    simp only [Prod.mk.injEq, true_and]
    simp [encodeProps]
    omega

theorem decodeValueWithSize_encode (fuel : Nat) :
    ∀ (v : Value), wfValue v = true → fuelV v ≤ fuel →
      ∀ (b : List Nat) (off : Nat) (rest : List Nat),
        b.drop off = encodeValue v ++ rest →
        decodeValueWithSize fuel b off = (v, (encodeValue v).length) := by
  induction fuel with
  | zero =>
    intro v _ hf
    have := fuelV_pos v
    omega
  | succ fuel ih =>
    intro v hwf hf b off rest hdrop
    have hlt : off < b.length := by
      by_contra hge
      push_neg at hge
      rw [List.drop_eq_nil_of_le hge] at hdrop
      exact encodeValue_ne_nil v (List.append_eq_nil.mp hdrop.symm).1
    have hb0 : byteAt b off = byteAt (encodeValue v ++ rest) 0 := by
      have h0 := byteAt_drop b off 0
      rw [Nat.add_zero] at h0
      rw [← h0, hdrop]
    rw [decodeValueWithSize, if_neg (by omega : ¬ off ≥ b.length)]
    cases v with
    | vnull =>
      rw [show byteAt (encodeValue .vnull ++ rest) 0 = 0x00 from rfl] at hb0
      rw [hb0]
      show (Value.vnull, 1) = (Value.vnull, (encodeValue Value.vnull).length)
      simp [encodeValue]
    | vbool bb =>
      rw [show byteAt (encodeValue (.vbool bb) ++ rest) 0 = 0x01 from rfl] at hb0
      rw [hb0]
      show (Value.vbool (byteAt b (off + 1) == 0x01), 2)
        = (Value.vbool bb, (encodeValue (Value.vbool bb)).length)
      have h1 : byteAt b (off + 1) = (if bb then 0x01 else 0x00) := by
        rw [← byteAt_drop, hdrop]
        cases bb <;> rfl
      rw [h1]
      cases bb <;> simp [encodeValue]
    | vint n =>
      rw [show byteAt (encodeValue (.vint n) ++ rest) 0 = 0x02 from rfl] at hb0
      rw [hb0]
      simp only [wfValue, Bool.and_eq_true, decide_eq_true_eq] at hwf
      show (Value.vint (readI32LE b (off + 1)), 5)
        = (Value.vint n, (encodeValue (Value.vint n)).length)
      have h1 : readI32LE b (off + 1) = n := by
        rw [← readI32LE_drop, hdrop]
        show readI32LE (0x02 :: (i32le n ++ rest)) (0 + 1) = n
        rw [readI32LE_cons]
        exact readI32LE_i32le n rest hwf.1 hwf.2
      rw [h1]
      simp [encodeValue]
    | vdouble bits =>
      rw [show byteAt (encodeValue (.vdouble bits) ++ rest) 0 = 0x03 from rfl] at hb0
      rw [hb0]
      simp only [wfValue, decide_eq_true_eq] at hwf
      show (Value.vdouble (readU64LE b (off + 1)), 9)
        = (Value.vdouble bits, (encodeValue (Value.vdouble bits)).length)
      have h1 : readU64LE b (off + 1) = bits := by
        rw [← readU64LE_drop, hdrop]
        show readU64LE (0x03 :: (u64le bits ++ rest)) (0 + 1) = bits
        rw [readU64LE_cons]
        exact readU64LE_u64le bits rest hwf
      rw [h1]
      simp [encodeValue]
    | vstring s =>
      rw [show byteAt (encodeValue (.vstring s) ++ rest) 0 = 0x04 from rfl] at hb0
      rw [hb0]
      simp only [wfValue, Bool.and_eq_true, decide_eq_true_eq] at hwf
      show (Value.vstring (substr b (off + 5) (readU32LE b (off + 1))), 5 + readU32LE b (off + 1))
        = (Value.vstring s, (encodeValue (Value.vstring s)).length)
      have h1 : readU32LE b (off + 1) = s.length := by
        rw [← readU32LE_drop, hdrop]
        show readU32LE (0x04 :: (u32le s.length ++ (s ++ rest))) (0 + 1) = s.length
        rw [readU32LE_cons]
        exact readU32LE_u32le s.length _ hwf.1
      have h2 : substr b (off + 5) s.length = s := by
        rw [substr_drop, hdrop]
        show ((u32le s.length ++ (s ++ rest)).drop 4).take s.length = s
        rw [drop_block _ _ 4 (u32le_length s.length), take_block _ _ _ rfl]
      rw [h1, h2]
      simp [encodeValue]
      omega
    | varray items =>
      rw [show byteAt (encodeValue (.varray items) ++ rest) 0 = 0x05 from rfl] at hb0
      rw [hb0]
      simp only [wfValue, Bool.and_eq_true, decide_eq_true_eq] at hwf
      have hfuel : fuelV (.varray items) = 1 + fuelItems items := by rw [fuelV]
      have h1 : readU32LE b (off + 1) = items.length := by
        rw [← readU32LE_drop, hdrop]
        show readU32LE (0x05 :: (u32le items.length ++ (encodeItems items ++ rest))) (0 + 1)
          = items.length
        rw [readU32LE_cons]
        exact readU32LE_u32le items.length _ hwf.1
      have hdrop5 : b.drop (off + 5) = encodeItems items ++ rest := by
        rw [← List.drop_drop, hdrop]
        exact drop_block (u32le items.length) _ 4 (u32le_length _)
      have h2 := decodeItemsLoop_encode fuel ih items hwf.2
        (fun w hw => by
          have := fuelV_le_of_mem_items items w hw
          omega)
        b (off + 5) rest hdrop5
      show (Value.varray (decodeItemsLoop (decodeValueWithSize fuel) (readU32LE b (off + 1)) b (off + 5)).1,
            (decodeItemsLoop (decodeValueWithSize fuel) (readU32LE b (off + 1)) b (off + 5)).2 - off)
        = (Value.varray items, (encodeValue (Value.varray items)).length)
      rw [h1, h2]
      simp only [Prod.mk.injEq, true_and]
      simp [encodeValue]
      omega
    | vobject props =>
      rw [show byteAt (encodeValue (.vobject props) ++ rest) 0 = 0x06 from rfl] at hb0
      rw [hb0]
      simp only [wfValue, Bool.and_eq_true, decide_eq_true_eq] at hwf
      have hfuel : fuelV (.vobject props) = 1 + fuelProps props := by rw [fuelV]
      have h1 : readU32LE b (off + 1) = props.length := by
        rw [← readU32LE_drop, hdrop]
        show readU32LE (0x06 :: (u32le props.length ++ (encodeProps props ++ rest))) (0 + 1)
          = props.length
        rw [readU32LE_cons]
        exact readU32LE_u32le props.length _ hwf.1.1
      have hdrop5 : b.drop (off + 5) = encodeProps props ++ rest := by
        rw [← List.drop_drop, hdrop]
        exact drop_block (u32le props.length) _ 4 (u32le_length _)
      have h2 := decodePropsLoop_encode fuel ih props hwf.2
        (fun q hq => by
          have := fuelV_le_of_mem_props props q hq
          omega)
        b (off + 5) rest hdrop5
      show (Value.vobject (decodePropsLoop (decodeValueWithSize fuel) (readU32LE b (off + 1)) b (off + 5)).1,
            (decodePropsLoop (decodeValueWithSize fuel) (readU32LE b (off + 1)) b (off + 5)).2 - off)
        = (Value.vobject props, (encodeValue (Value.vobject props)).length)
      rw [h1, h2]
      simp only [Prod.mk.injEq, true_and]
      simp [encodeValue]
      omega
    | vdate ms =>
      rw [show byteAt (encodeValue (.vdate ms) ++ rest) 0 = 0x07 from rfl] at hb0
      rw [hb0]
      simp only [wfValue, Bool.and_eq_true, decide_eq_true_eq] at hwf
      show (Value.vdate (readI64LE b (off + 1)), 9)
        = (Value.vdate ms, (encodeValue (Value.vdate ms)).length)
      have h1 : readI64LE b (off + 1) = ms := by
        rw [← readI64LE_drop, hdrop]
        show readI64LE (0x07 :: (i64le ms ++ rest)) (0 + 1) = ms
        rw [readI64LE_cons]
        exact readI64LE_i64le ms rest hwf.1 hwf.2
      rw [h1]
      simp [encodeValue]

theorem fuelItems_bound (n : Nat)
    (ih : ∀ v, fuelV v ≤ n → fuelV v < 2 * (encodeValue v).length) :
    ∀ (items : List Value), (∀ v ∈ items, fuelV v ≤ n) →
      fuelItems items ≤ 2 * (encodeItems items).length + 1 := by
  intro items
  induction items with
  | nil => intro _; simp [fuelItems, encodeItems]
  | cons v vs ihl =>
    intro hm
    have h1 := ih v (hm v (List.mem_cons_self v vs))
    have h2 := ihl (fun w hw => hm w (List.mem_cons_of_mem v hw))
    rw [fuelItems, encodeItems]
    simp only [List.length_append]
    omega

theorem fuelProps_bound (n : Nat)
    (ih : ∀ v, fuelV v ≤ n → fuelV v < 2 * (encodeValue v).length) :
    ∀ (props : List (List Nat × Value)), (∀ p ∈ props, fuelV p.2 ≤ n) →
      fuelProps props ≤ 2 * (encodeProps props).length + 1 := by
  intro props
  induction props with
  | nil => intro _; simp [fuelProps, encodeProps]
  | cons p ps ihl =>
    obtain ⟨k, v⟩ := p
    intro hm
    have h1 := ih v (hm (k, v) (List.mem_cons_self _ ps))
    have h2 := ihl (fun q hq => hm q (List.mem_cons_of_mem _ hq))
    rw [fuelProps, encodeProps]
    simp only [List.length_append, u16le_length]
    omega

theorem fuelV_lt_bound : ∀ (n : Nat) (v : Value), fuelV v ≤ n →
    fuelV v < 2 * (encodeValue v).length := by
  intro n
  induction n with
  | zero =>
    intro v hf
    have := fuelV_pos v
    omega
  | succ n ihn =>
    intro v hf
    cases v with
    | vnull => simp [fuelV, encodeValue]
    | vbool bb => simp [fuelV, encodeValue]
    | vint m => simp [fuelV, encodeValue]
    | vdouble bits => simp [fuelV, encodeValue]
    | vstring s => simp [fuelV, encodeValue]; omega
    | varray items =>
      have hfa : fuelV (.varray items) = 1 + fuelItems items := by rw [fuelV]
      have hm : ∀ w ∈ items, fuelV w ≤ n := by
        intro w hw
        have := fuelV_le_of_mem_items items w hw
        omega
      have := fuelItems_bound n ihn items hm
      rw [hfa, encodeValue]
      simp only [List.length_cons, List.length_append, u32le_length]
      omega
    | vobject props =>
      have hfa : fuelV (.vobject props) = 1 + fuelProps props := by rw [fuelV]
      have hm : ∀ q ∈ props, fuelV q.2 ≤ n := by
        intro q hq
        have := fuelV_le_of_mem_props props q hq
        omega
      have := fuelProps_bound n ihn props hm
      rw [hfa, encodeValue]
      simp only [List.length_cons, List.length_append, u32le_length]
      omega
    | vdate ms => simp [fuelV, encodeValue]

/-- Any encoding is decodable with fuel `2 * length + 1`, the budget the
embedded `readTableFromBinaryBuffer` supplies. -/
theorem fuelV_le_encodeLen (v : Value) :
    fuelV v ≤ 2 * (encodeValue v).length + 1 := by
  have := fuelV_lt_bound (fuelV v) v (le_refl _)
  omega

/-- Top-level round trip: `decodeValue` inverts `encodeValue` on
well-formed values, given enough fuel. -/
theorem decodeValue_encode (fuel : Nat) (v : Value)
    (hwf : wfValue v = true) (hf : fuelV v ≤ fuel) :
    decodeValue fuel (encodeValue v) = v := by
  have hne := encodeValue_ne_nil v
  rw [decodeValue, if_neg (by simpa using hne)]
  cases v with
  | vnull => simp [encodeValue]
  | vbool bb => cases bb <;> simp [encodeValue]
  | vint n =>
    simp only [wfValue, Bool.and_eq_true, decide_eq_true_eq] at hwf
    simp only [encodeValue]
    show Value.vint (readI32LE (0x02 :: i32le n) 1) = Value.vint n
    rw [show (1 : Nat) = 0 + 1 from rfl, readI32LE_cons,
        show i32le n = i32le n ++ [] by simp, readI32LE_i32le n [] hwf.1 hwf.2]
  | vdouble bits =>
    simp only [wfValue, decide_eq_true_eq] at hwf
    simp only [encodeValue]
    show Value.vdouble (readU64LE (0x03 :: u64le bits) 1) = Value.vdouble bits
    rw [show (1 : Nat) = 0 + 1 from rfl, readU64LE_cons,
        show u64le bits = u64le bits ++ [] by simp, readU64LE_u64le bits [] hwf]
  | vstring s =>
    simp only [wfValue, Bool.and_eq_true, decide_eq_true_eq] at hwf
    simp only [encodeValue]
    show Value.vstring
        (substr (0x04 :: (u32le s.length ++ s)) 5
          (readU32LE (0x04 :: (u32le s.length ++ s)) 1))
      = Value.vstring s
    rw [show (1 : Nat) = 0 + 1 from rfl, readU32LE_cons,
        readU32LE_u32le s.length _ hwf.1]
    show Value.vstring (((u32le s.length ++ s).drop 4).take s.length) = Value.vstring s
    rw [drop_block _ _ 4 (u32le_length s.length), List.take_length]
  | varray items =>
    simp only [wfValue, Bool.and_eq_true, decide_eq_true_eq] at hwf
    simp only [encodeValue]
    show Value.varray (decodeItemsLoop (decodeValueWithSize fuel)
        (readU32LE (0x05 :: (u32le items.length ++ encodeItems items)) 1)
        (0x05 :: (u32le items.length ++ encodeItems items)) 5).1
      = Value.varray items
    rw [show (1 : Nat) = 0 + 1 from rfl, readU32LE_cons,
        readU32LE_u32le items.length _ hwf.1]
    have hfa : fuelV (.varray items) = 1 + fuelItems items := by rw [fuelV]
    have hloop := decodeItemsLoop_encode fuel (decodeValueWithSize_encode fuel)
      items hwf.2
      (fun w hw => by
        have := fuelV_le_of_mem_items items w hw
        omega)
      (0x05 :: (u32le items.length ++ encodeItems items)) 5 []
      (by
        show (u32le items.length ++ encodeItems items).drop 4 = encodeItems items ++ []
        rw [drop_block _ _ 4 (u32le_length items.length), List.append_nil])
    rw [hloop]
  | vobject props =>
    simp only [wfValue, Bool.and_eq_true, decide_eq_true_eq] at hwf
    simp only [encodeValue]
    show Value.vobject (decodePropsLoop (decodeValueWithSize fuel)
        (readU32LE (0x06 :: (u32le props.length ++ encodeProps props)) 1)
        (0x06 :: (u32le props.length ++ encodeProps props)) 5).1
      = Value.vobject props
    rw [show (1 : Nat) = 0 + 1 from rfl, readU32LE_cons,
        readU32LE_u32le props.length _ hwf.1.1]
    have hfa : fuelV (.vobject props) = 1 + fuelProps props := by rw [fuelV]
    have hloop := decodePropsLoop_encode fuel (decodeValueWithSize_encode fuel)
      props hwf.2
      (fun q hq => by
        have := fuelV_le_of_mem_props props q hq
        omega)
      (0x06 :: (u32le props.length ++ encodeProps props)) 5 []
      (by
        show (u32le props.length ++ encodeProps props).drop 4 = encodeProps props ++ []
        rw [drop_block _ _ 4 (u32le_length props.length), List.append_nil])
    rw [hloop]
  | vdate ms =>
    simp only [wfValue, Bool.and_eq_true, decide_eq_true_eq] at hwf
    simp only [encodeValue]
    show Value.vdate (readI64LE (0x07 :: i64le ms) 1) = Value.vdate ms
    rw [show (1 : Nat) = 0 + 1 from rfl, readI64LE_cons,
        show i64le ms = i64le ms ++ [] by simp, readI64LE_i64le ms [] hwf.1 hwf.2]

/-!
## Table files (`Persistence.toBinaryBuffer` / `readTableFromBinaryBuffer`)

A table file is `M D B 0x01`, a LE `u32` record count, then per record a
26-byte fixed prefix (key length `u16`, value length `u32`, version `u32`,
timestamp `u64`, expiration `u64`) followed by the key bytes and the encoded
value.  A `Map` is modelled as an association list in iteration order; JS
`Map` keys are unique, which the claim-level theorems assume explicitly.
-/

/-- A decoded record, as `readTableFromBinaryBuffer` builds it:
`{value, version, timestamp, expiration: expiration || null}`
(`none` models JS `null`). -/
structure Rec where
  value : Value
  version : Nat
  timestamp : Nat
  expiration : Option Nat

/-- The per-record bytes written by `Persistence.toBinaryBuffer`
(`record.version || 0`, `BigInt(record.timestamp || 0)`,
`BigInt(record.expiration || 0)`; `null` expiration goes to the wire as 0). -/
def encodeRecord (k : List Nat) (r : Rec) : List Nat :=
  u16le k.length ++ (u32le (encodeValue r.value).length ++ (u32le r.version ++
    (u64le r.timestamp ++ (u64le (r.expiration.getD 0) ++
      (k ++ encodeValue r.value)))))

/-- The `for (const [key, record] of validEntries)` loop of `toBinaryBuffer`. -/
def encodeRecords : List (List Nat × Rec) → List Nat
  | [] => []
  | (k, r) :: rs => encodeRecord k r ++ encodeRecords rs

/-- `Persistence.toBinaryBuffer`: magic header `M D B 0x01`, LE `u32` record
count, then the records.  All keys of the model are strings, so the
`typeof key === 'string'` filter of the source keeps every entry. -/
def toBinaryBuffer (t : List (List Nat × Rec)) : List Nat :=
  [0x4d, 0x44, 0x42, 0x01] ++ (u32le t.length ++ encodeRecords t)

/-- The wire-level expiry test of the decoder:
`if (expiration && expiration <= now)` on the raw `u64`. -/
def recExpired (now : Nat) (r : Rec) : Bool :=
  decide (r.expiration.getD 0 ≠ 0) && decide (r.expiration.getD 0 ≤ now)

/-- The record loop of `readTableFromBinaryBuffer`
(`for (let i = 0; i < recordCount && offset + 26 <= buffer.length; i++)`).
Expired records are skipped; a record reaching past the buffer end breaks the
loop.  The decode fuel `2 * len + 1` is enough for any buffer produced by
`encodeValue` (`fuelV_le_encodeLen`); the source recursion is unbounded. -/
def readRecordsLoop (b : List Nat) (now : Nat) : Nat → Nat → List (List Nat × Rec)
  | 0, _ => []
  | count + 1, offset =>
    if offset + 26 ≤ b.length then
      let keyLength := readU16LE b offset
      let valueLength := readU32LE b (offset + 2)
      let version := readU32LE b (offset + 6)
      let timestamp := readU64LE b (offset + 10)
      let expiration := readU64LE b (offset + 18)
      if offset + 26 + keyLength + valueLength > b.length then []
      else if expiration ≠ 0 ∧ expiration ≤ now then
        readRecordsLoop b now count (offset + 26 + keyLength + valueLength)
      else
        let key := substr b (offset + 26) keyLength
        let valueBuffer := substr b (offset + 26 + keyLength) valueLength
        let value := decodeValue (2 * valueBuffer.length + 1) valueBuffer
        (key, ⟨value, version, timestamp,
          if expiration = 0 then none else some expiration⟩)
          :: readRecordsLoop b now count (offset + 26 + keyLength + valueLength)
    else []

/-- `Persistence.readTableFromBinaryBuffer`: header validation throws
`Invalid table file format`; otherwise the records are read starting at
offset 8.  `now` is the `time()` captured once at the top of the function. -/
def readTableFromBinaryBuffer (b : List Nat) (now : Nat) :
    Except String (List (List Nat × Rec)) :=
  if b.length < 8 ∨ byteAt b 0 ≠ 0x4d ∨ byteAt b 1 ≠ 0x44 ∨
      byteAt b 2 ≠ 0x42 ∨ byteAt b 3 ≠ 0x01 then
    .error "Invalid table file format"
  else
    .ok (readRecordsLoop b now (readU32LE b 4) 8)

/-- Record-level well-formedness: byte ranges and the range constraints the
source's buffer writers impose (`writeUInt16LE`, `writeUInt32LE`,
`writeBigUInt64LE` throw outside them); a `null` expiration is `none`, and a
present expiration is positive (the decoder writes `expiration || null`, so a
zero wire value never decodes to `some 0`). -/
def wfRec (k : List Nat) (r : Rec) : Bool :=
  decide (k.length < 65536) && k.all (fun c => c < 256) &&
  wfValue r.value &&
  decide ((encodeValue r.value).length < 4294967296) &&
  decide (r.version < 4294967296) &&
  decide (r.timestamp < 18446744073709551616) &&
  (match r.expiration with
   | none => true
   | some e => decide (0 < e) && decide (e < 18446744073709551616))

def wfTable : List (List Nat × Rec) → Bool
  | [] => true
  | (k, r) :: rs => wfRec k r && wfTable rs

@[simp] theorem encodeRecord_length (k : List Nat) (r : Rec) :
    (encodeRecord k r).length = 26 + k.length + (encodeValue r.value).length := by
  simp [encodeRecord]
  omega

theorem readU16LE_after (w X : List Nat) (n k : Nat) (hw : w.length = k)
    (h : n < 65536) : readU16LE (w ++ (u16le n ++ X)) k = n := by
  subst hw
  have hs := readU16LE_shift w (u16le n ++ X) 0
  rw [Nat.add_zero] at hs
  rw [hs]
  exact readU16LE_u16le n X h

theorem readU32LE_after (w X : List Nat) (n k : Nat) (hw : w.length = k)
    (h : n < 4294967296) : readU32LE (w ++ (u32le n ++ X)) k = n := by
  subst hw
  have hs := readU32LE_shift w (u32le n ++ X) 0
  rw [Nat.add_zero] at hs
  rw [hs]
  exact readU32LE_u32le n X h

theorem readU64LE_after (w X : List Nat) (n k : Nat) (hw : w.length = k)
    (h : n < 18446744073709551616) : readU64LE (w ++ (u64le n ++ X)) k = n := by
  subst hw
  have hs := readU64LE_shift w (u64le n ++ X) 0
  rw [Nat.add_zero] at hs
  rw [hs]
  exact readU64LE_u64le n X h

@[simp] theorem encodeRecords_cons_length (k : List Nat) (r : Rec)
    (rs : List (List Nat × Rec)) :
    (encodeRecords ((k, r) :: rs)).length
      = 26 + k.length + (encodeValue r.value).length + (encodeRecords rs).length := by
  rw [encodeRecords]
  simp

theorem readRecordsLoop_encodeRecords (now : Nat) :
    ∀ (rs : List (List Nat × Rec)), wfTable rs = true →
      ∀ (b : List Nat) (off : Nat),
        b.drop off = encodeRecords rs →
        b.length = off + (encodeRecords rs).length →
        readRecordsLoop b now rs.length off
          = rs.filter (fun q => !recExpired now q.2) := by
  intro rs
  induction rs with
  | nil =>
    intro _ b off _ _
    simp [readRecordsLoop]
  | cons p ps ihl =>
    obtain ⟨k, r⟩ := p
    intro hwf b off hdrop hlen
    have hwf' := hwf
    rw [wfTable] at hwf'
    simp only [Bool.and_eq_true] at hwf'
    obtain ⟨hwfr, hwfps⟩ := hwf'
    rw [wfRec] at hwfr
    simp only [Bool.and_eq_true, decide_eq_true_eq] at hwfr
    obtain ⟨⟨⟨⟨⟨⟨hklen, hkbytes⟩, hwfv⟩, hvlen⟩, hver⟩, hts⟩, hexpwf⟩ := hwfr
    rw [encodeRecords] at hdrop
    rw [encodeRecords_cons_length] at hlen
    -- field reads
    have hk16 : readU16LE b off = k.length := by
      have hs := readU16LE_drop b off 0
      rw [Nat.add_zero] at hs
      rw [← hs, hdrop]
      exact readU16LE_after []
        (u32le (encodeValue r.value).length ++ (u32le r.version ++
          (u64le r.timestamp ++ (u64le (r.expiration.getD 0) ++
            (k ++ encodeValue r.value)))) ++ encodeRecords ps)
        k.length 0 rfl hklen
    have hv32 : readU32LE b (off + 2) = (encodeValue r.value).length := by
      have hs := readU32LE_drop b off 2
      rw [← hs, hdrop]
      exact readU32LE_after (u16le k.length)
        ((u32le r.version ++ (u64le r.timestamp ++ (u64le (r.expiration.getD 0) ++
          (k ++ encodeValue r.value)))) ++ encodeRecords ps)
        (encodeValue r.value).length 2 rfl hvlen
    have hver32 : readU32LE b (off + 6) = r.version := by
      have hs := readU32LE_drop b off 6
      rw [← hs, hdrop]
      exact readU32LE_after (u16le k.length ++ u32le (encodeValue r.value).length)
        ((u64le r.timestamp ++ (u64le (r.expiration.getD 0) ++
          (k ++ encodeValue r.value))) ++ encodeRecords ps)
        r.version 6 (by simp) hver
    have hts64 : readU64LE b (off + 10) = r.timestamp := by
      have hs := readU64LE_drop b off 10
      rw [← hs, hdrop]
      exact readU64LE_after
        (u16le k.length ++ u32le (encodeValue r.value).length ++ u32le r.version)
        ((u64le (r.expiration.getD 0) ++ (k ++ encodeValue r.value)) ++ encodeRecords ps)
        r.timestamp 10 (by simp) hts
    have hexpbound : r.expiration.getD 0 < 18446744073709551616 := by
      cases hre : r.expiration with
      | none => simp
      | some e =>
        rw [hre] at hexpwf
        simp only [Bool.and_eq_true, decide_eq_true_eq] at hexpwf
        simpa using hexpwf.2
    have hexp64 : readU64LE b (off + 18) = r.expiration.getD 0 := by
      have hs := readU64LE_drop b off 18
      rw [← hs, hdrop]
      exact readU64LE_after
        (u16le k.length ++ u32le (encodeValue r.value).length ++ u32le r.version ++
          u64le r.timestamp)
        ((k ++ encodeValue r.value) ++ encodeRecords ps)
        (r.expiration.getD 0) 18 (by simp) hexpbound
    -- key and value bytes
    have hd26 : (encodeRecord k r ++ encodeRecords ps).drop 26
        = (k ++ encodeValue r.value) ++ encodeRecords ps :=
      drop_block
        (u16le k.length ++ (u32le (encodeValue r.value).length ++ (u32le r.version ++
          (u64le r.timestamp ++ u64le (r.expiration.getD 0)))))
        ((k ++ encodeValue r.value) ++ encodeRecords ps) 26 (by simp)
    have hkey : substr b (off + 26) k.length = k := by
      rw [substr_drop, hdrop]
      show ((encodeRecord k r ++ encodeRecords ps).drop 26).take k.length = k
      rw [hd26, List.append_assoc]
      exact take_block k _ _ rfl
    have hvalbuf : substr b (off + 26 + k.length) (encodeValue r.value).length
        = encodeValue r.value := by
      rw [Nat.add_assoc, substr_drop, hdrop]
      show ((encodeRecord k r ++ encodeRecords ps).drop (26 + k.length)).take
          (encodeValue r.value).length = encodeValue r.value
      rw [← List.drop_drop, hd26, List.append_assoc,
          drop_block k (encodeValue r.value ++ encodeRecords ps) k.length rfl]
      exact take_block _ _ _ rfl
    have hnext : b.drop (off + 26 + k.length + (encodeValue r.value).length)
        = encodeRecords ps := by
      rw [show off + 26 + k.length + (encodeValue r.value).length
            = off + (26 + k.length + (encodeValue r.value).length) by omega,
          ← List.drop_drop, hdrop]
      exact drop_block (encodeRecord k r) (encodeRecords ps) _
        (encodeRecord_length k r)
    -- unfold one loop iteration
    simp only [List.length_cons, readRecordsLoop]
    rw [if_pos (by omega : off + 26 ≤ b.length)]
    simp only [hk16, hv32, hver32, hts64, hexp64, hkey, hvalbuf]
    rw [if_neg (by omega :
      ¬ off + 26 + k.length + (encodeValue r.value).length > b.length)]
    by_cases hexpired : r.expiration.getD 0 ≠ 0 ∧ r.expiration.getD 0 ≤ now
    · rw [if_pos hexpired]
      have hRE : recExpired now r = true := by
        simp only [recExpired, Bool.and_eq_true, decide_eq_true_eq]
        exact hexpired
      have hcond : ¬ ((!recExpired now (k, r).2) = true) := by simp [hRE]
      rw [List.filter_cons, if_neg hcond]
      exact ihl hwfps b _ hnext (by omega)
    · rw [if_neg hexpired]
      have hRE : recExpired now r = false := by
        by_cases h0 : r.expiration.getD 0 = 0
        · simp [recExpired, h0]
        · have hle : ¬ r.expiration.getD 0 ≤ now := fun hle => hexpired ⟨h0, hle⟩
          simp [recExpired, h0, hle]
      have hvaldec :
          decodeValue (2 * (encodeValue r.value).length + 1) (encodeValue r.value)
            = r.value :=
        decodeValue_encode _ _ hwfv (fuelV_le_encodeLen r.value)
      have hx : (if r.expiration.getD 0 = 0 then none
            else some (r.expiration.getD 0)) = r.expiration := by
        cases hre : r.expiration with
        | none => simp
        | some e =>
          rw [hre] at hexpwf
          simp only [Bool.and_eq_true, decide_eq_true_eq] at hexpwf
          simp only [Option.getD_some]
          rw [if_neg (by omega : ¬ e = 0)]
      have hreceq : (⟨decodeValue (2 * (encodeValue r.value).length + 1)
            (encodeValue r.value), r.version, r.timestamp,
            if r.expiration.getD 0 = 0 then none
            else some (r.expiration.getD 0)⟩ : Rec) = r := by
        rw [hvaldec, hx]
      have hcond : (!recExpired now (k, r).2) = true := by simp [hRE]
      rw [List.filter_cons, if_pos hcond]
      rw [hreceq]
      rw [ihl hwfps b _ hnext (by omega)]

/-- Claim C5: for every table map `T` of records (string keys mapped to
`{value, version, timestamp, expiration}` with values built from the
supported value grammar), decoding the binary encoding of `T` returns `T`
itself, modulo records whose expiration has elapsed at decode time, which
are dropped: `readTableFromBinaryBuffer(toBinaryBuffer(T))` equals `T`
restricted to unexpired records.  The hypotheses state that `T` is a real JS
`Map` image the encoder accepts: unique keys, and field values inside the
ranges the buffer writers require. -/
theorem readTable_toBinaryBuffer_roundtrip (t : List (List Nat × Rec)) (now : Nat)
    (hwf : wfTable t = true)
    (hnodup : (t.map Prod.fst).Nodup)
    (hcount : t.length < 4294967296) :
    readTableFromBinaryBuffer (toBinaryBuffer t) now
      = .ok (t.filter (fun q => !recExpired now q.2)) := by
  have hblen : (toBinaryBuffer t).length = 8 + (encodeRecords t).length := by
    simp [toBinaryBuffer]
    omega
  rw [readTableFromBinaryBuffer, if_neg (by
    push_neg
    refine ⟨by omega, rfl, rfl, rfl, rfl⟩)]
  have hcnt : readU32LE (toBinaryBuffer t) 4 = t.length :=
    readU32LE_after [0x4d, 0x44, 0x42, 0x01] (encodeRecords t) t.length 4 rfl hcount
  rw [hcnt]
  rw [readRecordsLoop_encodeRecords now t hwf (toBinaryBuffer t) 8
    (drop_block ([0x4d, 0x44, 0x42, 0x01] ++ u32le t.length) (encodeRecords t) 8
      (by simp))
    (by omega)]

/-- Witness for `readTable_toBinaryBuffer_roundtrip`: a concrete two-record
table — one live record, one whose expiration 50 has elapsed at decode time
100 — encodes and decodes back to just the live record. -/
theorem readTable_toBinaryBuffer_roundtrip_witness :
    wfTable [([107], ⟨Value.vint 7, 1, 10, none⟩),
             ([108], ⟨Value.vnull, 2, 10, some 50⟩)] = true ∧
    readTableFromBinaryBuffer
        (toBinaryBuffer [([107], ⟨Value.vint 7, 1, 10, none⟩),
                         ([108], ⟨Value.vnull, 2, 10, some 50⟩)]) 100
      = .ok [([107], ⟨Value.vint 7, 1, 10, none⟩)] := by
  have hwf : wfTable [([107], (⟨Value.vint 7, 1, 10, none⟩ : Rec)),
      ([108], ⟨Value.vnull, 2, 10, some 50⟩)] = true := by
    simp [wfTable, wfRec, wfValue, encodeValue]
  refine ⟨hwf, ?_⟩
  rw [readTable_toBinaryBuffer_roundtrip _ 100 hwf (by decide) (by decide)]
  rfl

/-!
## Claims C6 and C3: unknown tags and corrupt headers
-/

/-- A syntactically valid one-record table file (key `"k"`, version 7, no
expiration) whose encoded value is the single byte `tag`. -/
def unknownTagFile (tag : Nat) : List Nat :=
  [0x4d, 0x44, 0x42, 0x01] ++ (u32le 1 ++ (u16le 1 ++ (u32le 1 ++ (u32le 7 ++
    (u64le 0 ++ (u64le 0 ++ ([107] ++ [tag])))))))

/-- Counterexample to claim C6 (the claim says a record whose value carries
an unknown type tag is aborted and skipped, absent from the decoded map):
decoding a file whose single record's value is the unknown tag byte `0xFF`
returns a table that still CONTAINS that record, with value `null` —
`decodeValue`'s default case logs a warning and returns `null`; the caller
`readTableFromBinaryBuffer` stores the record regardless. -/
theorem unknownTag_record_kept_counterexample :
    readTableFromBinaryBuffer (unknownTagFile 255) 0
      = .ok [([107], ⟨Value.vnull, 7, 0, none⟩)] := rfl

/-- Claim C6 as amended: during decoding, a record whose value has an
unknown type tag (a byte outside `0x00`–`0x07`) is NOT skipped: its value
decodes to `null` (with a logged warning) and the record appears in the
decoded table map with that `null` value. -/
theorem unknownTag_decodes_to_null (tag : Nat) (h8 : 8 ≤ tag) (h256 : tag < 256) :
    readTableFromBinaryBuffer (unknownTagFile tag) 0
      = .ok [([107], ⟨Value.vnull, 7, 0, none⟩)] := by
  have hdec : decodeValue 3 [tag] = Value.vnull := by
    interval_cases tag <;> rfl
  calc readTableFromBinaryBuffer (unknownTagFile tag) 0
      = .ok [([107], ⟨decodeValue 3 [tag], 7, 0, none⟩)] := rfl
    _ = .ok [([107], ⟨Value.vnull, 7, 0, none⟩)] := by rw [hdec]

/-- Witness for `unknownTag_decodes_to_null` at the concrete tag `0xC8`. -/
theorem unknownTag_decodes_to_null_witness :
    (8 ≤ 200 ∧ 200 < 256) ∧
    readTableFromBinaryBuffer (unknownTagFile 200) 0
      = .ok [([107], ⟨Value.vnull, 7, 0, none⟩)] :=
  ⟨by decide, unknownTag_decodes_to_null 200 (by decide) (by decide)⟩

/-- The disk-content handling of `Table.loadTable` (src/Table.ts:165-204),
with encryption not configured: a missing file means `createTable` (an empty
table); a file shorter than 8 bytes is logged (`is too small, recreating`)
and recreated empty; any other content goes to
`readTableFromBinaryBuffer`, and there is no try/catch around that call, so
a parse error propagates to the caller (`setActiveTable`, hence `get`/
`write`). -/
def loadTableResult (fileExists : Bool) (fileBuffer : List Nat) (now : Nat) :
    Except String (List (List Nat × Rec)) :=
  if !fileExists then .ok []
  else if fileBuffer.length < 8 then .ok []
  else readTableFromBinaryBuffer fileBuffer now

/-- Counterexample to claim C3 (the claim says a table file failing the
header check is logged and reinitialized empty, with no parse error
reaching the caller of get/write): loading an 8-byte all-zero file — whose
magic bytes are invalid — produces the uncaught error
`Invalid table file format` instead of an empty table. -/
theorem loadTable_invalid_magic_counterexample :
    loadTableResult true (List.replicate 8 0) 7
      = .error "Invalid table file format" := rfl

/-- Claim C3 as amended: only a table file SHORTER than 8 bytes is logged and
reinitialized as an empty table; a file of at least 8 bytes that fails the
magic-byte check makes `readTableFromBinaryBuffer` throw
`Invalid table file format`, and `loadTable` propagates that error to the
caller of get/write (there is no surrounding try/catch). -/
theorem loadTable_header_check (b : List Nat) (now : Nat) :
    (b.length < 8 → loadTableResult true b now = .ok []) ∧
    (8 ≤ b.length →
      (byteAt b 0 ≠ 0x4d ∨ byteAt b 1 ≠ 0x44 ∨ byteAt b 2 ≠ 0x42 ∨
        byteAt b 3 ≠ 0x01) →
      loadTableResult true b now = .error "Invalid table file format") := by
  constructor
  · intro hshort
    rw [loadTableResult]
    simp [hshort]
  · intro hlong hbad
    rw [loadTableResult]
    simp only [Bool.not_true, Bool.false_eq_true, if_false]
    rw [if_neg (by omega), readTableFromBinaryBuffer,
      if_pos (by
        rcases hbad with h | h | h | h
        · exact Or.inr (Or.inl h)
        · exact Or.inr (Or.inr (Or.inl h))
        · exact Or.inr (Or.inr (Or.inr (Or.inl h)))
        · exact Or.inr (Or.inr (Or.inr (Or.inr h))))]

/-- Witness for `loadTable_header_check`: a 9-byte file starting with the
wrong first magic byte propagates the parse error. -/
theorem loadTable_header_check_witness :
    8 ≤ (List.replicate 9 3 : List Nat).length ∧
    loadTableResult true (List.replicate 9 3) 0
      = .error "Invalid table file format" :=
  ⟨by decide,
    (loadTable_header_check (List.replicate 9 3) 0).2 (by decide)
      (Or.inl (by decide))⟩

/-!
## The table manager (`Table.ts`)

JS `Map`s become association lists in insertion order (`Map.set` updates in
place, `Map.delete` removes, `Map.get` looks up).
-/

def mapGet {α β : Type} [DecidableEq α] : List (α × β) → α → Option β
  | [], _ => none
  | (k', v) :: rest, k => if k' = k then some v else mapGet rest k

def mapSet {α β : Type} [DecidableEq α] : List (α × β) → α → β → List (α × β)
  | [], k, v => [(k, v)]
  | (k', v') :: rest, k, v =>
    if k' = k then (k, v) :: rest else (k', v') :: mapSet rest k v

def mapDelete {α β : Type} [DecidableEq α] : List (α × β) → α → List (α × β)
  | [], _ => []
  | (k', v') :: rest, k => if k' = k then rest else (k', v') :: mapDelete rest k

/-- An in-memory item of `Table.data`.  The write path (`Table.writeItem`)
stores the object literal `{value, v, t, x}`; items materialized from a
table file (`loadTable` → `readTableFromBinaryBuffer`) or from WAL replay
(`applyWALEntries` → `setItem(table, op.key, op.data)`) carry the field
names `{value, version, timestamp, expiration}` instead.  `wr`'s `v` is an
`Option` because `newVersion` can be `NaN` (see `getItemVersion`). -/
inductive StoredItem where
  | wr (value : Value) (v : Option Nat) (t : Nat) (x : Nat) : StoredItem
  | mat (value : Value) (version : Nat) (timestamp : Nat)
      (expiration : Option Nat) : StoredItem

/-- JS read of `item.v`: `undefined` (`none`) on a materialized item. -/
def fieldV : StoredItem → Option Nat
  | .wr _ v _ _ => v
  | .mat _ _ _ _ => none

/-- JS read of `item.t`. -/
def fieldT : StoredItem → Option Nat
  | .wr _ _ t _ => some t
  | .mat _ _ _ _ => none

/-- JS read of `item.x`. -/
def fieldX : StoredItem → Option Nat
  | .wr _ _ _ x => some x
  | .mat _ _ _ _ => none

def itemValue : StoredItem → Value
  | .wr value _ _ _ => value
  | .mat value _ _ _ => value

/-- `item?.x !== 0` — true when `item.x` is `undefined`. -/
def xNeqZero : Option Nat → Bool
  | some x => decide (x ≠ 0)
  | none => true

/-- `Date.now() > item?.x` — false when `item.x` is `undefined`
(`now > NaN` is false). -/
def nowGtX (now : Nat) : Option Nat → Bool
  | some x => decide (now > x)
  | none => false

/-- The object `Table.getItem` returns:
`{value: item.value, version: item.v, timestamp: item.t, expiration: item.x}`.
`version`/`timestamp`/`expiration` are `undefined` (`none`) for items that
entered memory through a table-file load or WAL replay. -/
structure GetRec where
  value : Value
  version : Option Nat
  timestamp : Option Nat
  expiration : Option Nat

/-- The engine's in-memory store `Table.data : Map<string, Map<string, any>>`. -/
def DataMap : Type := List (List Nat × List (List Nat × StoredItem))

/-- `Table.getItem(tableName, key)` together with its lazy-deletion side
effect on `Table.data` (`deleteItem` on an item considered expired):
returns the record (or `none`) and the updated store. -/
def getItemInData (data : DataMap) (tableName key : List Nat) (now : Nat) :
    Option GetRec × DataMap :=
  match mapGet data tableName with
  | none => (none, data)
  | some tbl =>
    match mapGet tbl key with
    | none => (none, data)
    | some item =>
      if xNeqZero (fieldX item) && nowGtX now (fieldX item) then
        (none, mapSet data tableName (mapDelete tbl key))
      else
        (some ⟨itemValue item, fieldV item, fieldT item, fieldX item⟩, data)

/-- `Table.setItem`: `createTable` then `data.get(tableName).set(key, item)`. -/
def setItemInData (data : DataMap) (tableName key : List Nat)
    (item : StoredItem) : DataMap :=
  let tbl := (mapGet data tableName).getD []
  mapSet data tableName (mapSet tbl key item)

/-- `Table.deleteItem`: `data.get(tableName)?.delete(key)`. -/
def deleteItemInData (data : DataMap) (tableName key : List Nat) : DataMap :=
  match mapGet data tableName with
  | none => data
  | some tbl => mapSet data tableName (mapDelete tbl key)

/-- The result record of `Table.getItemVersion`.  `currentVersion` is
`currentRecord.version`, which is `undefined` for materialized items;
`newVersion = currentVersion + 1` is then `NaN`.  Both are `Option Nat`. -/
structure IVR where
  success : Bool
  currentVersion : Option Nat
  newVersion : Option Nat
  expiration : Nat

/-- `Table.getItemVersion` (src/Table.ts:367-387), with `getItem`'s
lazy-deletion side effect threaded through.  The JS comparison
`currentVersion !== expectedVersion` is false whenever `currentVersion` is
`undefined`/`NaN`, so any concrete `expectedVersion` then mismatches. -/
def getItemVersionInData (data : DataMap) (tableName key : List Nat)
    (now : Nat) (expectedVersion : Option Nat) : IVR × DataMap :=
  let r := getItemInData data tableName key now
  let currentVersion : Option Nat :=
    match r.1 with
    | some rec => rec.version
    | none => some 0
  let newVersion := currentVersion.map (· + 1)
  let expiration : Nat :=
    match r.1 with
    | some rec => rec.expiration.getD 0
    | none => 0
  let success :=
    match expectedVersion with
    | none => true
    | some ev => currentVersion == some ev
  (⟨success, currentVersion, newVersion, expiration⟩, r.2)

/-- The `currentVersion` the code observes for a key (0 when absent or
lazily expired; `none` when the stored item is a materialized record whose
`.version` field read as `v` is `undefined`). -/
def currentVersionOf (data : DataMap) (tableName key : List Nat)
    (now : Nat) : Option Nat :=
  match (getItemInData data tableName key now).1 with
  | some rec => rec.version
  | none => some 0

/-- One entry of the write-ahead log, before serialization to the line
`"{ts} {op} {table} v:{version} x:{expiration} {key} {json}\n"`.
`version` is `Option Nat` because `newVersion` can be `NaN`. -/
inductive WalOp where
  | W : WalOp
  | D : WalOp
deriving DecidableEq

structure WalEntry where
  timestamp : Nat
  op : WalOp
  tableName : List Nat
  version : Option Nat
  expiration : Nat
  key : List Nat
  value : Value

/-- The in-memory state the table-layer claims range over: the data store,
the write-ahead log (buffer and flushed file in append order — the flush
thresholds only move entries from buffer to file, which the claims do not
distinguish), and the pending write buffer (tableName, key, record snapshot
taken by `addToWriteBuffer` via `getItem`).  The model assumes the target
table is already resident and the WAL holds no unapplied entries for it, so
`setActiveTable` is the identity; cache tracking is modelled separately
(`Cache`). -/
structure TableState where
  data : DataMap
  wal : List WalEntry
  writeBuffer : List (List Nat × List Nat × Option GetRec)

/-- A write operation (`WriteOperation`): `expectedVersion` defaults to
`null`, `expiration` to 0. -/
structure WriteOp where
  tableName : List Nat
  key : List Nat
  value : Value
  expectedVersion : Option Nat
  expiration : Nat

/-- `Table.writeItem` (src/Table.ts:281-323): version check, WAL append,
in-memory store of `{value, v: newVersion, t: time(), x: expiration}`,
write-buffer push (whose `getItem` re-read can itself lazily delete an
already-expired fresh record). -/
def writeItem (st : TableState) (now : Nat) (op : WriteOp) :
    Bool × TableState :=
  let r := getItemVersionInData st.data op.tableName op.key now op.expectedVersion
  if !r.1.success then (false, { st with data := r.2 })
  else
    let entry : WalEntry :=
      ⟨now, .W, op.tableName, r.1.newVersion, op.expiration, op.key, op.value⟩
    let data2 := setItemInData r.2 op.tableName op.key
      (.wr op.value r.1.newVersion now op.expiration)
    let rec2 := getItemInData data2 op.tableName op.key now
    (true,
      ⟨rec2.2, st.wal ++ [entry],
        st.writeBuffer ++ [(op.tableName, op.key, rec2.1)]⟩)

/-- The `batch.map(op => this.writeItem(op, false))` of `Table.write`,
sequentialized: the operations of a slice run on the single-threaded event
loop; their in-memory effects apply in order. -/
def runSlice (now : Nat) : List WriteOp → TableState → List Bool × TableState
  | [], st => ([], st)
  | op :: ops, st =>
    let r := writeItem st now op
    let rest := runSlice now ops r.2
    (r.1 :: rest.1, rest.2)

/-- `Table.flushWrites`: persists the buffered entries to disk and drops the
processed snapshot; the in-memory `data` is untouched. -/
def flushWrites (st : TableState) : TableState := { st with writeBuffer := [] }

/-- The `while (processedOperations < totalOperations)` loop of
`Table.write` (src/Table.ts:241-276): process slices of `concurrencyLimit`,
abort returning `false` as soon as a slice reports a failure, flush the
write buffer when it reaches `maxWriteOpsBeforeFlush`.  The source never
terminates when `concurrencyLimit = 0`; the model returns `(true, st)` in
that unreachable configuration and every theorem assumes `0 < cl`. -/
def writeLoop (now maxW cl : Nat) : List WriteOp → TableState → Bool × TableState
  | [], st => (true, st)
  | op :: ops, st =>
    if h : cl = 0 then (true, st)
    else
      let slice := (op :: ops).take cl
      let r := runSlice now slice st
      if r.1.contains false then (false, r.2)
      else
        let st2 := if maxW ≤ r.2.writeBuffer.length then flushWrites r.2 else r.2
        writeLoop now maxW cl ((op :: ops).drop cl) st2
  termination_by ops => ops.length
  decreasing_by
    simp only [List.length_drop, List.length_cons]
    omega

/-- `Table.write`: the slice loop, then — batch failure aside — the
unconditional final `flush()` (`totalOperations >= 0` is always true; the
flush moves the WAL buffer and write buffer to disk). -/
def write (now maxW : Nat) (ops : List WriteOp) (cl : Nat)
    (st : TableState) : Bool × TableState :=
  let r := writeLoop now maxW cl ops st
  if r.1 then (true, flushWrites r.2) else (false, r.2)

/-!
## WAL replay (`WriteAheadLog.loadWAL`, src/WriteAheadLog.ts:115-201)

A WAL file is a sequence of lines; `loadWAL` splits each line on spaces into
`timestamp op tableName v:version x:expiration key json...`.  A line is
modelled post-tokenization: the ignored timestamp token is dropped, `op` is
the raw second token (byte list; `"W" = [87]`, `"D" = [68]`),
`version` is the numeric value of `Number(version.split(':')[1])`,
`expiration` is `none` when the raw token is literally `"0"`
(`expiration === '0' ? null : Number(...)`) and `some n` otherwise, and
`json` is the outcome of `getJsonValue` on the remaining tokens —
`none` for a JSON parse failure (`undefined`), `some .vnull` for an empty
tail or the literal `null`. -/
structure WalLineEntry where
  op : List Nat
  tableName : List Nat
  version : Nat
  expiration : Option Nat
  key : List Nat
  json : Option Value

inductive WalLine where
  | blank : WalLine
  | entry (e : WalLineEntry) : WalLine

/-- `if (parsedExpiration && parsedExpiration < now) continue;` -/
def walLineExpired (now : Nat) : Option Nat → Bool
  | some x => decide (x ≠ 0) && decide (x < now)
  | none => false

/-- `getJsonValueFromEntry(json, operation)`: a delete always carries
`null`; otherwise the parse outcome of the value tokens. -/
def getJsonValueFromEntry (e : WalLineEntry) : Option Value :=
  if e.op = [68] then some Value.vnull else e.json

/-- An operation returned by `loadWAL`; a `W` carries
`{value, version, timestamp: now, expiration}`. -/
inductive ReplayOp where
  | W (tableName key : List Nat) (value : Value) (version : Nat)
      (timestamp : Nat) (expiration : Option Nat) : ReplayOp
  | D (tableName key : List Nat) : ReplayOp

/-- The line loop of `loadWAL(table?)`.  `table` is the optional filter;
`cursor` is `lastProcessedEntryCount.get(table)` for that table (read at
every iteration from the live map, so updates during the pass are visible);
`idx` is the current line index.  Returns the collected operations and the
final cursor.  With `table = none` no cursor is consulted or written. -/
def loadWALGo (table : Option (List Nat)) (now : Nat) :
    List WalLine → Nat → Nat → List ReplayOp × Nat
  | [], _, cursor => ([], cursor)
  | line :: rest, idx, cursor =>
    match line with
    | .blank => loadWALGo table now rest (idx + 1) cursor
    | .entry e =>
      if (match table with | some _ => decide (idx < cursor) | none => false)
        then loadWALGo table now rest (idx + 1) cursor
      else if (match table with
               | some t => decide (e.tableName ≠ t)
               | none => false)
        then loadWALGo table now rest (idx + 1) cursor
      else if walLineExpired now e.expiration then
        loadWALGo table now rest (idx + 1) cursor
      else
        match getJsonValueFromEntry e with
        | none => loadWALGo table now rest (idx + 1) cursor
        | some v =>
          let cursor' := match table with | some _ => idx + 1 | none => cursor
          let r := loadWALGo table now rest (idx + 1) cursor'
          if e.op = [87] then
            (.W e.tableName e.key v e.version now e.expiration :: r.1, r.2)
          else if e.op = [68] then
            (.D e.tableName e.key :: r.1, r.2)
          else r

/-- `loadWAL(table?)` on a non-empty WAL file already flushed to disk:
start at line 0 with the table's stored cursor. -/
def loadWAL (table : Option (List Nat)) (now : Nat) (lines : List WalLine)
    (cursor : Nat) : List ReplayOp × Nat :=
  loadWALGo table now lines 0 cursor

/-- The serialized-then-reparsed view of a buffered WAL entry: `appendToWAL`
writes `"{ts} {op} {table} v:{version} x:{expiration} {key} {json}\n"`, and
the `loadWAL` tokenizer recovers exactly these fields provided the key
contains no space or newline, the version is an actual number, and the value
round-trips through JSON (true of the plain JSON fragment of the value
grammar used below). -/
def lineOfEntry (e : WalEntry) : WalLine :=
  .entry ⟨(match e.op with | .W => [87] | .D => [68]), e.tableName,
    e.version.getD 0, some e.expiration, e.key, some e.value⟩

/-- `Table.applyWALEntries`: apply replayed operations to the store —
`W` stores `op.data` verbatim (field names `value`/`version`/`timestamp`/
`expiration`, hence a materialized item), `D` deletes the key. -/
def applyReplayOps (data : DataMap) : List ReplayOp → DataMap
  | [] => data
  | .W tn k v ver ts ex :: rest =>
    applyReplayOps (setItemInData data tn k (.mat v ver ts ex)) rest
  | .D tn k :: rest =>
    applyReplayOps (deleteItemInData data tn k) rest

/-- Claim C1 (evaluating the code at a failing input): one successful write
of key `"k"` (so `n = 1` and the stored version is 1) into a fresh engine,
the WAL flushed; a new engine replays the WAL (`applyWALEntries` stores the
replayed `{value, version, timestamp, expiration}` object verbatim) and a
subsequent `get` returns the value with `version` equal to JS `undefined`
(`none`), not 1: `getItem` reads `item.v`, a field only the in-memory write
path sets.  The claim requires version `n = 1` in every state including WAL
replay; the code violates it. -/
theorem replayed_record_version_undefined :
    (writeItem ⟨[], [], []⟩ 5 ⟨[116], [107], Value.vint 42, none, 0⟩).1 = true ∧
    (getItemInData
        (applyReplayOps []
          (loadWAL none 6
            ((writeItem ⟨[], [], []⟩ 5
                ⟨[116], [107], Value.vint 42, none, 0⟩).2.wal.map lineOfEntry)
            0).1)
        [116] [107] 7).1
      = some ⟨Value.vint 42, none, none, none⟩ :=
  ⟨rfl, rfl⟩

/-- The store after `loadTable` materializes a decoded table:
`this.data.set(tableName, tableData)`. -/
def loadedDataOf (tableName : List Nat) (recs : List (List Nat × Rec)) :
    DataMap :=
  [(tableName,
    recs.map (fun p =>
      (p.1, StoredItem.mat p.2.value p.2.version p.2.timestamp p.2.expiration)))]

/-- An on-disk table file with one record: key `"k"`, value `int32 9`,
version 3, timestamp 0, expiration 5. -/
def expiringRecordFile : List Nat :=
  [0x4d, 0x44, 0x42, 0x01] ++ (u32le 1 ++ (u16le 1 ++ (u32le 5 ++ (u32le 3 ++
    (u64le 0 ++ (u64le 5 ++ ([107] ++ (0x02 :: i32le 9))))))))

/-- Claim C2 (evaluating the code at a failing input): a table file holding
a record that expires at time 5 is loaded at time 1 (the decoder keeps it,
as its expiration has not yet elapsed); a `get` at time 10 — after the
expiration — RETURNS the record's value instead of deleting it and
reporting not-found: the expiry check reads `item.x`, which is `undefined`
on a record materialized from disk, and `Date.now() > undefined` is false.
The claim requires that no `get` ever returns such an expired record. -/
theorem expired_loaded_record_still_returned :
    readTableFromBinaryBuffer expiringRecordFile 1
      = .ok [([107], ⟨Value.vint 9, 3, 0, some 5⟩)] ∧
    getItemInData (loadedDataOf [116] [([107], ⟨Value.vint 9, 3, 0, some 5⟩)])
        [116] [107] 10
      = (some ⟨Value.vint 9, none, none, none⟩,
         loadedDataOf [116] [([107], ⟨Value.vint 9, 3, 0, some 5⟩)]) :=
  ⟨rfl, rfl⟩

/-- Counterexample to claim C4 (the claim says a version-mismatched write
leaves the state unchanged and the stored record keeps its previous value
and version): on a table holding key `"k"` as `{value: 1, v: 1, t: 0, x: 5}`
— expired at the write time 10 — a write with `expectedVersion = 2` returns
`false` (the lazily-computed current version is 0), appends nothing to the
WAL, but DELETES the stored record: the state is not unchanged. -/
theorem write_mismatch_deletes_expired_counterexample :
    writeItem
        ⟨[([116], [([107], StoredItem.wr (Value.vint 1) (some 1) 0 5)])], [], []⟩
        10 ⟨[116], [107], Value.vint 2, some 2, 0⟩
      = (false, ⟨[([116], [])], [], []⟩) := rfl

/-- Claim C4 as amended: a write whose `expectedVersion` differs from the
observed current version (0 when the key is absent or lazily expired)
returns `false`, appends no WAL entry, pushes nothing onto the write
buffer, and leaves the store unchanged EXCEPT for the lazy deletion of an
expired record performed by the version check's read; and a batch whose
first slice reports a failure returns `false` as a whole while the records
already committed by that slice remain (the post-slice state is kept). -/
theorem write_version_mismatch_behavior :
    (∀ (st : TableState) (now : Nat) (op : WriteOp) (ev : Nat),
      op.expectedVersion = some ev →
      currentVersionOf st.data op.tableName op.key now ≠ some ev →
      writeItem st now op
        = (false,
            { st with data := (getItemInData st.data op.tableName op.key now).2 })) ∧
    (∀ (now maxW cl : Nat) (ops : List WriteOp) (st : TableState),
      0 < cl → ops ≠ [] →
      (runSlice now (ops.take cl) st).1.contains false = true →
      write now maxW ops cl st = (false, (runSlice now (ops.take cl) st).2)) := by
  constructor
  · intro st now op ev hev hmis
    unfold currentVersionOf at hmis
    unfold writeItem getItemVersionInData
    rw [hev]
    have hbeq : ((match (getItemInData st.data op.tableName op.key now).1 with
        | some rec => rec.version
        | none => some 0) == some ev) = false := by
      rw [beq_eq_false_iff_ne]
      exact hmis
    simp only [hbeq, Bool.not_false, if_true]
  · intro now maxW cl ops st hcl hne hfail
    cases ops with
    | nil => exact absurd rfl hne
    | cons o os =>
      unfold write writeLoop
      rw [dif_neg (by omega : ¬ cl = 0)]
      simp only [hfail, if_true]
      simp

/-- Witness for `write_version_mismatch_behavior`: part one at a concrete
live record (version 1, expectedVersion 5 — the spec's own scenario), part
two at a one-element batch containing that failing write. -/
theorem write_version_mismatch_behavior_witness :
    ((⟨[116], [107], Value.vint 7, some 5, 0⟩ : WriteOp).expectedVersion = some 5 ∧
      currentVersionOf [([116], [([107], StoredItem.wr (Value.vint 3) (some 1) 0 0)])]
        [116] [107] 10 ≠ some 5) ∧
    writeItem ⟨[([116], [([107], StoredItem.wr (Value.vint 3) (some 1) 0 0)])], [], []⟩
        10 ⟨[116], [107], Value.vint 7, some 5, 0⟩
      = (false, ⟨[([116], [([107], StoredItem.wr (Value.vint 3) (some 1) 0 0)])], [], []⟩) ∧
    write 10 100 [⟨[116], [107], Value.vint 7, some 5, 0⟩] 10
        ⟨[([116], [([107], StoredItem.wr (Value.vint 3) (some 1) 0 0)])], [], []⟩
      = (false, ⟨[([116], [([107], StoredItem.wr (Value.vint 3) (some 1) 0 0)])], [], []⟩) := by
  refine ⟨⟨rfl, by decide⟩, ?_, ?_⟩
  · exact (write_version_mismatch_behavior.1
      ⟨[([116], [([107], StoredItem.wr (Value.vint 3) (some 1) 0 0)])], [], []⟩
      10 ⟨[116], [107], Value.vint 7, some 5, 0⟩ 5 rfl (by decide)).trans rfl
  · exact (write_version_mismatch_behavior.2 10 100 10
      [⟨[116], [107], Value.vint 7, some 5, 0⟩]
      ⟨[([116], [([107], StoredItem.wr (Value.vint 3) (some 1) 0 0)])], [], []⟩
      (by omega) (by simp) (by decide)).trans rfl

/-- Claim C8 (evaluating the code at a failing input): a write whose key is
`"a b"` — containing a space — is accepted: `writeItem` performs no key
validation, returns `true`, and appends a WAL entry carrying that key
(whose serialized line the whitespace-delimited replay parser would then
misparse).  The claim requires such writes to be rejected with a validation
error before any WAL append. -/
theorem space_key_write_accepted :
    (writeItem ⟨[], [], []⟩ 5 ⟨[116], [97, 32, 98], Value.vint 1, none, 0⟩).1
      = true ∧
    (writeItem ⟨[], [], []⟩ 5 ⟨[116], [97, 32, 98], Value.vint 1, none, 0⟩).2.wal
      = [⟨5, .W, [116], some 1, 0, [97, 32, 98], Value.vint 1⟩] ∧
    ([97, 32, 98].contains 32 = true) :=
  ⟨rfl, rfl, by decide⟩

/-!
## Claim C7: WAL replay idempotence
-/

/-- One-step equation of `loadWALGo` for a table-filtered pass on a parsed
entry line, with the decidable conditions in `Prop` form. -/
theorem loadWALGo_entry_some (t : List Nat) (now : Nat) (e : WalLineEntry)
    (rest : List WalLine) (idx cursor : Nat) :
    loadWALGo (some t) now (.entry e :: rest) idx cursor
      = if idx < cursor then loadWALGo (some t) now rest (idx + 1) cursor
        else if e.tableName ≠ t then loadWALGo (some t) now rest (idx + 1) cursor
        else if walLineExpired now e.expiration then
          loadWALGo (some t) now rest (idx + 1) cursor
        else
          match getJsonValueFromEntry e with
          | none => loadWALGo (some t) now rest (idx + 1) cursor
          | some v =>
            let r := loadWALGo (some t) now rest (idx + 1) (idx + 1)
            if e.op = [87] then
              (.W e.tableName e.key v e.version now e.expiration :: r.1, r.2)
            else if e.op = [68] then
              (.D e.tableName e.key :: r.1, r.2)
            else r := by
  rw [loadWALGo]
  simp only [decide_eq_true_eq]

theorem loadWALGo_blank (t : Option (List Nat)) (now : Nat)
    (rest : List WalLine) (idx cursor : Nat) :
    loadWALGo t now (.blank :: rest) idx cursor
      = loadWALGo t now rest (idx + 1) cursor := by
  rw [loadWALGo]

theorem loadWALGo_skip_cursor (t : List Nat) (now : Nat) (e : WalLineEntry)
    (rest : List WalLine) (idx cursor : Nat) (h1 : idx < cursor) :
    loadWALGo (some t) now (.entry e :: rest) idx cursor
      = loadWALGo (some t) now rest (idx + 1) cursor := by
  rw [loadWALGo_entry_some, if_pos h1]

theorem loadWALGo_skip_table (t : List Nat) (now : Nat) (e : WalLineEntry)
    (rest : List WalLine) (idx cursor : Nat) (h1 : ¬ idx < cursor)
    (h2 : e.tableName ≠ t) :
    loadWALGo (some t) now (.entry e :: rest) idx cursor
      = loadWALGo (some t) now rest (idx + 1) cursor := by
  rw [loadWALGo_entry_some, if_neg h1, if_pos h2]

theorem loadWALGo_skip_expired (t : List Nat) (now : Nat) (e : WalLineEntry)
    (rest : List WalLine) (idx cursor : Nat) (h1 : ¬ idx < cursor)
    (h2 : ¬ e.tableName ≠ t) (h3 : walLineExpired now e.expiration = true) :
    loadWALGo (some t) now (.entry e :: rest) idx cursor
      = loadWALGo (some t) now rest (idx + 1) cursor := by
  rw [loadWALGo_entry_some, if_neg h1, if_neg h2, if_pos h3]

theorem loadWALGo_skip_badjson (t : List Nat) (now : Nat) (e : WalLineEntry)
    (rest : List WalLine) (idx cursor : Nat) (h1 : ¬ idx < cursor)
    (h2 : ¬ e.tableName ≠ t) (h3 : ¬ walLineExpired now e.expiration = true)
    (hj : getJsonValueFromEntry e = none) :
    loadWALGo (some t) now (.entry e :: rest) idx cursor
      = loadWALGo (some t) now rest (idx + 1) cursor := by
  rw [loadWALGo_entry_some, if_neg h1, if_neg h2, if_neg h3, hj]

/-- An accepted line bumps the cursor to `idx + 1` before the tail is
processed; whichever operation it contributes, the final cursor is the
tail's. -/
theorem loadWALGo_accept_snd (t : List Nat) (now : Nat) (e : WalLineEntry)
    (rest : List WalLine) (idx cursor : Nat) (v : Value)
    (h1 : ¬ idx < cursor) (h2 : ¬ e.tableName ≠ t)
    (h3 : ¬ walLineExpired now e.expiration = true)
    (hj : getJsonValueFromEntry e = some v) :
    (loadWALGo (some t) now (.entry e :: rest) idx cursor).2
      = (loadWALGo (some t) now rest (idx + 1) (idx + 1)).2 := by
  rw [loadWALGo_entry_some, if_neg h1, if_neg h2, if_neg h3, hj]
  show (if e.op = [87] then
          (ReplayOp.W e.tableName e.key v e.version now e.expiration ::
              (loadWALGo (some t) now rest (idx + 1) (idx + 1)).1,
            (loadWALGo (some t) now rest (idx + 1) (idx + 1)).2)
        else if e.op = [68] then
          (ReplayOp.D e.tableName e.key ::
              (loadWALGo (some t) now rest (idx + 1) (idx + 1)).1,
            (loadWALGo (some t) now rest (idx + 1) (idx + 1)).2)
        else loadWALGo (some t) now rest (idx + 1) (idx + 1)).2
      = (loadWALGo (some t) now rest (idx + 1) (idx + 1)).2
  by_cases h4 : e.op = [87]
  · rw [if_pos h4]
  · rw [if_neg h4]
    by_cases h5 : e.op = [68]
    · rw [if_pos h5]
    · rw [if_neg h5]

/-- The per-table cursor never decreases during a pass. -/
theorem loadWALGo_cursor_mono (t : List Nat) (now : Nat) :
    ∀ (lines : List WalLine) (idx cursor : Nat),
      cursor ≤ (loadWALGo (some t) now lines idx cursor).2 := by
  intro lines
  induction lines with
  | nil => intro idx cursor; simp [loadWALGo]
  | cons line rest ih =>
    intro idx cursor
    cases line with
    | blank => rw [loadWALGo_blank]; exact ih (idx + 1) cursor
    | entry e =>
      by_cases h1 : idx < cursor
      · rw [loadWALGo_skip_cursor t now e rest idx cursor h1]
        exact ih (idx + 1) cursor
      · by_cases h2 : e.tableName ≠ t
        · rw [loadWALGo_skip_table t now e rest idx cursor h1 h2]
          exact ih (idx + 1) cursor
        · by_cases h3 : walLineExpired now e.expiration = true
          · rw [loadWALGo_skip_expired t now e rest idx cursor h1 h2 h3]
            exact ih (idx + 1) cursor
          · cases hj : getJsonValueFromEntry e with
            | none =>
              rw [loadWALGo_skip_badjson t now e rest idx cursor h1 h2 h3 hj]
              exact ih (idx + 1) cursor
            | some v =>
              rw [loadWALGo_accept_snd t now e rest idx cursor v h1 h2 h3 hj]
              have := ih (idx + 1) (idx + 1)
              omega

/-- After one pass over a fixed set of lines, a second pass starting from
the cursor the first pass left behind delivers nothing, provided the clock
has not gone backwards: every line the first pass accepted now lies below
the cursor, and every line it rejected is rejected again (table mismatch
and JSON parse failure are deterministic; an entry expired at `now1` is
still expired at `now2 >= now1`). -/
theorem loadWALGo_second_pass_empty (t : List Nat) (now1 now2 : Nat)
    (h12 : now1 ≤ now2) :
    ∀ (lines : List WalLine) (idx cursor : Nat),
      (loadWALGo (some t) now2 lines idx
        (loadWALGo (some t) now1 lines idx cursor).2).1 = [] := by
  intro lines
  induction lines with
  | nil => intro idx cursor; simp [loadWALGo]
  | cons line rest ih =>
    intro idx cursor
    cases line with
    | blank =>
      rw [loadWALGo_blank t now1, loadWALGo_blank]
      exact ih (idx + 1) cursor
    | entry e =>
      by_cases h1 : idx < cursor
      · rw [loadWALGo_skip_cursor t now1 e rest idx cursor h1]
        have hc1 := loadWALGo_cursor_mono t now1 rest (idx + 1) cursor
        rw [loadWALGo_skip_cursor t now2 e rest idx _ (by omega)]
        exact ih (idx + 1) cursor
      · by_cases h2 : e.tableName ≠ t
        · rw [loadWALGo_skip_table t now1 e rest idx cursor h1 h2]
          by_cases h1' : idx < (loadWALGo (some t) now1 rest (idx + 1) cursor).2
          · rw [loadWALGo_skip_cursor t now2 e rest idx _ h1']
            exact ih (idx + 1) cursor
          · rw [loadWALGo_skip_table t now2 e rest idx _ h1' h2]
            exact ih (idx + 1) cursor
        · by_cases h3 : walLineExpired now1 e.expiration = true
          · rw [loadWALGo_skip_expired t now1 e rest idx cursor h1 h2 h3]
            have h3' : walLineExpired now2 e.expiration = true := by
              cases hx : e.expiration with
              | none => rw [hx] at h3; simp [walLineExpired] at h3
              | some x =>
                rw [hx] at h3
                simp only [walLineExpired, Bool.and_eq_true,
                  decide_eq_true_eq] at h3 ⊢
                omega
            by_cases h1' : idx < (loadWALGo (some t) now1 rest (idx + 1) cursor).2
            · rw [loadWALGo_skip_cursor t now2 e rest idx _ h1']
              exact ih (idx + 1) cursor
            · rw [loadWALGo_skip_expired t now2 e rest idx _ h1' h2 h3']
              exact ih (idx + 1) cursor
          · cases hj : getJsonValueFromEntry e with
            | none =>
              rw [loadWALGo_skip_badjson t now1 e rest idx cursor h1 h2 h3 hj]
              by_cases h1' : idx < (loadWALGo (some t) now1 rest (idx + 1) cursor).2
              · rw [loadWALGo_skip_cursor t now2 e rest idx _ h1']
                exact ih (idx + 1) cursor
              · by_cases h3' : walLineExpired now2 e.expiration = true
                · rw [loadWALGo_skip_expired t now2 e rest idx _ h1' h2 h3']
                  exact ih (idx + 1) cursor
                · rw [loadWALGo_skip_badjson t now2 e rest idx _ h1' h2 h3' hj]
                  exact ih (idx + 1) cursor
            | some v =>
              rw [loadWALGo_accept_snd t now1 e rest idx cursor v h1 h2 h3 hj]
              have hmono := loadWALGo_cursor_mono t now1 rest (idx + 1) (idx + 1)
              rw [loadWALGo_skip_cursor t now2 e rest idx _ (by omega)]
              exact ih (idx + 1) (idx + 1)

/-- Claim C7: after the WAL buffer has been flushed once, calling
`loadWAL(table)` twice in a row for the same table returns first the
operations recorded for that table and then an empty sequence — the
per-table cursor makes replay idempotent, including when lines are skipped
for being expired, malformed, blank, or belonging to other tables.  `now1 ≤
now2` states that the clock does not go backwards between the calls. -/
theorem loadWAL_replay_idempotent (t : List Nat) (lines : List WalLine)
    (now1 now2 : Nat) (h : now1 ≤ now2) :
    (loadWAL (some t) now2 lines (loadWAL (some t) now1 lines 0).2).1 = [] := by
  unfold loadWAL
  exact loadWALGo_second_pass_empty t now1 now2 h lines 0 0

/-- Witness for `loadWAL_replay_idempotent` on a five-line WAL: a good
write for the table, a line for another table, an expired line, a
malformed-JSON line, and a blank line.  The first pass returns exactly the
one live operation for the table; the second pass returns nothing. -/
theorem loadWAL_replay_idempotent_witness :
    (5 : Nat) ≤ 9 ∧
    (loadWAL (some [116]) 5
        [.entry ⟨[87], [116], 1, some 0, [107], some (Value.vint 1)⟩,
         .entry ⟨[87], [117], 1, some 0, [108], some (Value.vint 2)⟩,
         .entry ⟨[87], [116], 2, some 3, [109], some (Value.vint 3)⟩,
         .entry ⟨[87], [116], 3, some 0, [110], none⟩,
         .blank] 0).1
      = [.W [116] [107] (Value.vint 1) 1 5 (some 0)] ∧
    (loadWAL (some [116]) 9
        [.entry ⟨[87], [116], 1, some 0, [107], some (Value.vint 1)⟩,
         .entry ⟨[87], [117], 1, some 0, [108], some (Value.vint 2)⟩,
         .entry ⟨[87], [116], 2, some 3, [109], some (Value.vint 3)⟩,
         .entry ⟨[87], [116], 3, some 0, [110], none⟩,
         .blank]
        (loadWAL (some [116]) 5
          [.entry ⟨[87], [116], 1, some 0, [107], some (Value.vint 1)⟩,
           .entry ⟨[87], [117], 1, some 0, [108], some (Value.vint 2)⟩,
           .entry ⟨[87], [116], 2, some 3, [109], some (Value.vint 3)⟩,
           .entry ⟨[87], [116], 3, some 0, [110], none⟩,
           .blank] 0).2).1 = [] := by
  refine ⟨by omega, rfl, ?_⟩
  exact loadWAL_replay_idempotent [116]
    [.entry ⟨[87], [116], 1, some 0, [107], some (Value.vint 1)⟩,
     .entry ⟨[87], [117], 1, some 0, [108], some (Value.vint 2)⟩,
     .entry ⟨[87], [116], 2, some 3, [109], some (Value.vint 3)⟩,
     .entry ⟨[87], [116], 3, some 0, [110], none⟩,
     .blank] 5 9 (by omega)

/-!
## Claim C9: LRU eviction (`Cache.findTablesForEviction`, src/Cache.ts:33-45)
-/

/-- The comparator `(a, b) => a[1] - b[1]` of the eviction sort: ascending
by access time. -/
def byTime (p q : List Nat × Nat) : Prop := p.2 ≤ q.2

instance : DecidableRel byTime := fun p q => Nat.decLe p.2 q.2

instance : IsTotal (List Nat × Nat) byTime := ⟨fun a b => Nat.le_total a.2 b.2⟩

instance : IsTrans (List Nat × Nat) byTime :=
  ⟨fun _ _ _ hab hbc => Nat.le_trans hab hbc⟩

/-- `Array.from(tableAccessTimes.entries()).sort((a, b) => a[1] - b[1])`.
With a comparator, ECMAScript requires the result to be ordered by it;
for the pairwise-distinct access times of the claim the sorted permutation
is unique, so insertion sort models the call exactly. -/
def sortByTime (l : List (List Nat × Nat)) : List (List Nat × Nat) :=
  l.insertionSort byTime

/-- `Cache.trackTableAccess`: `tableAccessTimes.set(tableName, time())`. -/
def trackTableAccess (times : List (List Nat × Nat)) (tableName : List Nat)
    (now : Nat) : List (List Nat × Nat) :=
  mapSet times tableName now

/-- `Cache.findTablesForEviction(currentTableCount)`: below or at the cache
limit nothing is evicted; otherwise the `(count − limit)` least recently
used table names are returned (sorted ascending by access time) and removed
from the tracker.  Returns the eviction list and the updated tracker. -/
def findTablesForEviction (times : List (List Nat × Nat))
    (cacheLimit currentTableCount : Nat) :
    List (List Nat) × List (List Nat × Nat) :=
  if currentTableCount ≤ cacheLimit then ([], times)
  else
    let evictionCount := currentTableCount - cacheLimit
    let evictionCandidates :=
      ((sortByTime times).take evictionCount).map Prod.fst
    (evictionCandidates,
      evictionCandidates.foldl (fun m name => mapDelete m name) times)

theorem mapGet_eq_some_of_mem (m : List (List Nat × Nat))
    (hk : (m.map Prod.fst).Nodup) (p : List Nat × Nat) (hp : p ∈ m) :
    mapGet m p.1 = some p.2 := by
  induction m with
  | nil => cases hp
  | cons q rest ih =>
    rw [List.map_cons, List.nodup_cons] at hk
    rcases List.mem_cons.mp hp with rfl | hmem
    · rw [mapGet, if_pos rfl]
    · rw [mapGet]
      by_cases he : q.1 = p.1
      · exact absurd (he ▸ List.mem_map_of_mem Prod.fst hmem) hk.1
      · rw [if_neg he]
        exact ih hk.2 hmem

theorem filter_ne_key_eq_self (m : List (List Nat × Nat)) (k : List Nat)
    (hk : k ∉ m.map Prod.fst) :
    m.filter (fun p => decide (p.1 ≠ k)) = m := by
  induction m with
  | nil => rfl
  | cons q rest ih =>
    rw [List.map_cons, List.mem_cons] at hk
    push_neg at hk
    rw [List.filter_cons, if_pos (by simpa using fun h => hk.1 h.symm)]
    rw [ih hk.2]

theorem mapDelete_eq_filter (m : List (List Nat × Nat)) (k : List Nat)
    (hk : (m.map Prod.fst).Nodup) :
    mapDelete m k = m.filter (fun p => decide (p.1 ≠ k)) := by
  induction m with
  | nil => rfl
  | cons q rest ih =>
    rw [List.map_cons, List.nodup_cons] at hk
    rw [mapDelete, List.filter_cons]
    by_cases he : q.1 = k
    · rw [if_pos he, if_neg (by simpa using he)]
      exact (filter_ne_key_eq_self rest k (he ▸ hk.1)).symm
    · rw [if_neg he, if_pos (by simpa using he)]
      rw [ih hk.2]

theorem nodup_keys_filter (m : List (List Nat × Nat))
    (hk : (m.map Prod.fst).Nodup) (p : (List Nat × Nat) → Bool) :
    ((m.filter p).map Prod.fst).Nodup :=
  ((List.filter_sublist m (p := p)).map Prod.fst).nodup hk

theorem foldl_mapDelete_eq_filter (names : List (List Nat)) :
    ∀ (m : List (List Nat × Nat)), (m.map Prod.fst).Nodup →
      names.foldl (fun acc name => mapDelete acc name) m
        = m.filter (fun p => decide (p.1 ∉ names)) := by
  induction names with
  | nil =>
    intro m _
    simp
  | cons n ns ih =>
    intro m hk
    rw [List.foldl_cons, mapDelete_eq_filter m n hk,
      ih _ (nodup_keys_filter m hk _), List.filter_filter]
    apply List.filter_congr
    intro p _
    simp only [List.mem_cons, decide_not, Bool.and_comm]
    by_cases h1 : p.1 = n <;> by_cases h2 : p.1 ∈ ns <;>
      simp [h1, h2]

/-- Claim C9: with `n` tracked tables of pairwise-distinct access times and
cache limit `k`: at or below the limit nothing is evicted and the tracker
is untouched; above it, `findTablesForEviction(n)` returns exactly the
`n − k` table names of smallest access time, in ascending access-time
order (each listed table's time is below every retained table's time), and
removes exactly those names from the tracker. -/
theorem findTablesForEviction_lru (times : List (List Nat × Nat)) (k : Nat)
    (hkeys : (times.map Prod.fst).Nodup)
    (htimes : (times.map Prod.snd).Nodup) :
    (times.length ≤ k →
      findTablesForEviction times k times.length = ([], times)) ∧
    (k < times.length →
      (findTablesForEviction times k times.length).1.length
          = times.length - k ∧
      List.Pairwise
        (fun a b => ∃ ta tb, mapGet times a = some ta ∧
          mapGet times b = some tb ∧ ta < tb)
        (findTablesForEviction times k times.length).1 ∧
      (∀ a ∈ (findTablesForEviction times k times.length).1,
        ∀ p ∈ times, p.1 ∉ (findTablesForEviction times k times.length).1 →
          ∃ ta, mapGet times a = some ta ∧ ta < p.2) ∧
      (findTablesForEviction times k times.length).2
        = times.filter
            (fun p =>
              decide (p.1 ∉ (findTablesForEviction times k times.length).1))) := by
  constructor
  · intro h
    rw [findTablesForEviction, if_pos h]
  · intro h
    have hne : ¬ times.length ≤ k := by omega
    have hfind : findTablesForEviction times k times.length
        = (((sortByTime times).take (times.length - k)).map Prod.fst,
           (((sortByTime times).take (times.length - k)).map Prod.fst).foldl
             (fun m name => mapDelete m name) times) := by
      rw [findTablesForEviction, if_neg hne]
    have hperm : List.Perm (sortByTime times) times :=
      List.perm_insertionSort byTime times
    have hsorted : List.Pairwise byTime (sortByTime times) :=
      List.sorted_insertionSort byTime times
    have hsnd : ((sortByTime times).map Prod.snd).Nodup :=
      ((hperm.map Prod.snd).nodup_iff).mpr htimes
    have hstrict : List.Pairwise (fun p q : List Nat × Nat => p.2 < q.2)
        (sortByTime times) := by
      have h2 : List.Pairwise (fun p q : List Nat × Nat => p.2 ≠ q.2)
          (sortByTime times) := List.pairwise_map.mp hsnd
      exact (hsorted.and h2).imp (fun hpq => lt_of_le_of_ne hpq.1 hpq.2)
    have hlen : (sortByTime times).length = times.length := hperm.length_eq
    have hmem_take_times : ∀ p, p ∈ (sortByTime times).take (times.length - k) →
        p ∈ times := fun p hp =>
      hperm.mem_iff.mp (List.mem_of_mem_take hp)
    refine ⟨?_, ?_, ?_, ?_⟩
    · rw [hfind]
      simp only [List.length_map, List.length_take]
      omega
    · rw [hfind]
      apply List.pairwise_map.mpr
      apply List.Pairwise.imp_of_mem ?_
        (hstrict.sublist (List.take_sublist _ _))
      intro p q hp hq hlt
      exact ⟨p.2, q.2,
        mapGet_eq_some_of_mem times hkeys p (hmem_take_times p hp),
        mapGet_eq_some_of_mem times hkeys q (hmem_take_times q hq), hlt⟩
    · rw [hfind]
      intro a ha p hp hpnot
      obtain ⟨pa, hpa, rfl⟩ := List.mem_map.mp ha
      have hp_s : p ∈ (sortByTime times) := hperm.mem_iff.mpr hp
      have hsplit := List.take_append_drop (times.length - k) (sortByTime times)
      have hp_cases : p ∈ (sortByTime times).take (times.length - k) ∨
          p ∈ (sortByTime times).drop (times.length - k) := by
        rw [← List.mem_append, hsplit]
        exact hp_s
      rcases hp_cases with hin | hdrop
      · exact absurd (List.mem_map_of_mem Prod.fst hin) hpnot
      · have hcross := (List.pairwise_append.mp (by rw [hsplit]; exact hstrict)).2.2
        exact ⟨pa.2,
          mapGet_eq_some_of_mem times hkeys pa (hmem_take_times pa hpa),
          hcross pa hpa p hdrop⟩
    · rw [hfind]
      exact foldl_mapDelete_eq_filter _ times hkeys

/-- Witness for `findTablesForEviction_lru`: three tables with access times
30, 10, 20 and cache limit 1 evict the two least recent, times ascending
(`[2]` at 10, then `[3]` at 20), leaving only `[1]` tracked. -/
theorem findTablesForEviction_lru_witness :
    ((([([1], 30), ([2], 10), ([3], 20)] :
        List (List Nat × Nat)).map Prod.fst).Nodup ∧
      (([([1], 30), ([2], 10), ([3], 20)] :
        List (List Nat × Nat)).map Prod.snd).Nodup ∧
      1 < ([([1], 30), ([2], 10), ([3], 20)] :
        List (List Nat × Nat)).length) ∧
    (findTablesForEviction [([1], 30), ([2], 10), ([3], 20)] 1
        ([([1], 30), ([2], 10), ([3], 20)] :
          List (List Nat × Nat)).length).1.length = 2 ∧
    findTablesForEviction [([1], 30), ([2], 10), ([3], 20)] 1 3
      = ([[2], [3]], [([1], 30)]) :=
  ⟨⟨by decide, by decide, by decide⟩,
   ((findTablesForEviction_lru [([1], 30), ([2], 10), ([3], 20)] 1
      (by decide) (by decide)).2 (by decide)).1,
   rfl⟩

/-! ### Query.query (src/MikroDB.ts concatenation, Query.ts) and the
filtered read path of Table.get (src/Table.ts 209–236).

`Query.query(table, filter, limit = 50)` iterates the table map in
insertion order, collects `v.value` of each record passing the filter into
a `records` map, and stops as soon as `limit && records.size >= limit`.
A function filter is modelled as `Option (Value → Bool)` (`none` = no
filter passed); the `FilterQuery`-object branch evaluates to a boolean the
same way and is covered by the same function type.  `Table.get` with an
options object passes `options.limit` straight through (JS default
parameters substitute 50 only for `undefined`), then slices only when
`options.offset != null || options.limit != null`.  `options.sort` absent. -/

def filterPass (filter : Option (Value → Bool)) (v : StoredItem) : Bool :=
  match filter with
  | none => true
  | some f => f (itemValue v)

def queryGo (filter : Option (Value → Bool)) (lim : Nat) :
    List (List Nat × StoredItem) → List (List Nat × Value) →
      List (List Nat × Value)
  | [], acc => acc
  | (k, v) :: rest, acc =>
    if filterPass filter v then
      if lim ≠ 0 ∧ lim ≤ (mapSet acc k (itemValue v)).length then
        mapSet acc k (itemValue v)
      else queryGo filter lim rest (mapSet acc k (itemValue v))
    else queryGo filter lim rest acc

def queryResult (table : List (List Nat × StoredItem))
    (filter : Option (Value → Bool)) (lim : Nat) : List Value :=
  (queryGo filter lim table []).map Prod.snd

def getWithOptions (table : List (List Nat × StoredItem))
    (filter : Option (Value → Bool)) (offsetOpt limitOpt : Option Nat) :
    List Value :=
  let results := queryResult table filter (limitOpt.getD 50)
  if offsetOpt ≠ none ∨ limitOpt ≠ none then
    if limitOpt.getD 0 = 0 then results.drop (offsetOpt.getD 0)
    else (results.drop (offsetOpt.getD 0)).take (limitOpt.getD 0)
  else results

theorem mapSet_eq_append {α β : Type} [DecidableEq α]
    (m : List (α × β)) (k : α) (v : β) (hk : k ∉ m.map Prod.fst) :
    mapSet m k v = m ++ [(k, v)] := by
  induction m with
  | nil => rfl
  | cons p rest ih =>
    obtain ⟨k', v'⟩ := p
    simp only [List.map_cons, List.mem_cons] at hk
    push_neg at hk
    rw [mapSet, if_neg hk.1.symm, ih hk.2]
    rfl

theorem queryGo_spec (f : Value → Bool) (lim : Nat) (hlim : lim ≠ 0) :
    ∀ (table : List (List Nat × StoredItem)),
      ∀ (acc : List (List Nat × Value)),
        (acc.map Prod.fst ++ table.map Prod.fst).Nodup →
        acc.length < lim →
        queryGo (some f) lim table acc
          = acc ++ ((table.filter (fun p => f (itemValue p.2))).map
              (fun p => (p.1, itemValue p.2))).take (lim - acc.length) := by
  intro table
  induction table with
  | nil =>
    intro acc _ _
    simp [queryGo]
  | cons p rest ih =>
    intro acc hnd hlt
    obtain ⟨k, v⟩ := p
    simp only [List.map_cons] at hnd
    by_cases hf : f (itemValue v) = true
    · have hknotacc : k ∉ acc.map Prod.fst := by
        intro hmem
        rcases List.nodup_append.mp hnd with ⟨_, _, hdisj⟩
        exact hdisj hmem (List.mem_cons_self _ _)
      have hacc : mapSet acc k (itemValue v) = acc ++ [(k, itemValue v)] :=
        mapSet_eq_append acc k (itemValue v) hknotacc
      have hlen' : (mapSet acc k (itemValue v)).length = acc.length + 1 := by
        rw [hacc]; simp
      have hfc : (fun p : List Nat × StoredItem =>
          f (itemValue p.2)) (k, v) = true := hf
      simp only [queryGo, filterPass]
      rw [if_pos hf]
      by_cases hbreak : lim ≤ acc.length + 1
      · have hcondp : lim ≠ 0 ∧ lim ≤ (mapSet acc k (itemValue v)).length :=
          ⟨hlim, by rw [hlen']; exact hbreak⟩
        rw [if_pos hcondp, hacc, List.filter_cons, if_pos hfc, List.map_cons]
        have h1 : lim - acc.length = 1 := by omega
        rw [h1]
        rfl
      · have hcondn : ¬(lim ≠ 0 ∧ lim ≤ (mapSet acc k (itemValue v)).length) :=
          fun hc => hbreak (hlen' ▸ hc.2)
        rw [if_neg hcondn, hacc]
        have hnd2 : ((acc ++ [(k, itemValue v)]).map Prod.fst ++
            rest.map Prod.fst).Nodup := by
          simp only [List.map_append, List.map_cons, List.map_nil,
            List.append_assoc, List.cons_append, List.nil_append]
          simpa using hnd
        have hlt2 : (acc ++ [(k, itemValue v)]).length < lim := by
          simp only [List.length_append, List.length_cons, List.length_nil]
          omega
        rw [ih (acc ++ [(k, itemValue v)]) hnd2 hlt2,
          List.filter_cons, if_pos hfc, List.map_cons]
        simp only [List.length_append, List.length_cons, List.length_nil]
        have h2 : lim - acc.length = (lim - (acc.length + (0 + 1))) + 1 := by
          omega
        rw [h2, List.take_succ_cons, List.append_assoc]
        rfl
    · have hfc : ¬((fun p : List Nat × StoredItem =>
          f (itemValue p.2)) (k, v) = true) := hf
      have hnd3 : (acc.map Prod.fst ++ rest.map Prod.fst).Nodup := by
        rcases List.nodup_append.mp hnd with ⟨ha, hb, hdisj⟩
        exact List.nodup_append.mpr ⟨ha, (List.nodup_cons.mp hb).2,
          fun a ha' hb' => hdisj ha' (List.mem_cons_of_mem _ hb')⟩
      simp only [queryGo, filterPass]
      rw [if_neg hf, ih acc hnd3 hlt, List.filter_cons, if_neg hfc]

/-- Claim C10: a `get` with a query-options object carrying a function
filter but neither `limit` nor `offset` returns exactly the values of the
first (at most) 50 records matching the filter in table iteration order —
the default `limit = 50` of `Query.query` applies even though the caller
requested no limit — so the result never holds more than 50 records and
every later match is omitted. -/
theorem query_default_limit_50 (table : List (List Nat × StoredItem))
    (f : Value → Bool) (hk : (table.map Prod.fst).Nodup) :
    getWithOptions table (some f) none none
      = ((table.filter (fun p => f (itemValue p.2))).map
          (fun p => itemValue p.2)).take 50 ∧
    (getWithOptions table (some f) none none).length ≤ 50 := by
  have h0 : getWithOptions table (some f) none none
      = queryResult table (some f) 50 := by
    simp [getWithOptions]
  have h1 : queryGo (some f) 50 table []
      = ((table.filter (fun p => f (itemValue p.2))).map
          (fun p => (p.1, itemValue p.2))).take 50 := by
    have h := queryGo_spec f 50 (by omega) table [] (by simpa using hk)
      (by simp)
    simpa using h
  constructor
  · rw [h0, queryResult, h1, List.map_take, List.map_map]
    rfl
  · rw [h0, queryResult, h1]
    simp only [List.length_map, List.length_take]
    omega

/-- A 52-record table with pairwise-distinct keys, used to witness the
default query limit. -/
def bigTable : List (List Nat × StoredItem) :=
  (List.range 52).map (fun i => ([i], StoredItem.mat (Value.vint i) 1 0 none))

/-- Witness for `query_default_limit_50`: on a 52-record table with the
always-true filter and no limit, the result length is exactly 50 — the
last two matching records are dropped by the default limit. -/
theorem query_default_limit_50_witness :
    (bigTable.map Prod.fst).Nodup ∧
    (getWithOptions bigTable (some (fun _ => true)) none none).length ≤ 50 ∧
    (getWithOptions bigTable (some (fun _ => true)) none none).length = 50 :=
  ⟨by decide,
   (query_default_limit_50 bigTable (fun _ => true) (by decide)).2,
   by rfl⟩

end MikroDB
